import Mathlib

/-!
Verification development for the Anima-LLM-Vtuber repository.

Shallow embedding of:
  * `src/anima/pipeline/output_pipeline.py` (`OutputPipeline.process`,
    `_emit_sentence`, `_emit_completion_marker`, `_emit_event`, `interrupt`)
    together with the interrupted-check of
    `src/anima/services/conversation/orchestrator.py`
    (`ConversationOrchestrator._process_conversation`);
  * `src/anima/live2d/emotion_extractor.py` (`EmotionExtractor.extract`,
    `_remove_segments`);
  * `src/anima/services/vad/implementations/silero_vad.py`
    (`SileroStateMachine.process`);
  * `src/anima/live2d/strategies/position_based.py` and
    `src/anima/live2d/strategies/base.py` (`PositionBasedStrategy.calculate`
    and its helpers);
  * `src/anima/eventbus/bus.py` (`EventBus.subscribe`, `subscribe_all`,
    `emit`).

Python machine integers are modelled by `Nat`/`Int`; Python floats in the
timeline strategy are modelled by `ℚ` (the claims under scrutiny are about
exact list/interval structure, not rounding); byte strings are modelled by
`List Nat`.
-/

/-! ## Output pipeline (`output_pipeline.py`) -/

/-- A chunk yielded by the agent stream, as dispatched by
`OutputPipeline.process`: a dict with `type` `"text"`/`"sentence"` (or a bare
`str`, handled identically), a dict with `type` `"tool_call"`, or a dict with
any other `type` (ignored by the loop). -/
inductive Chunk where
  | text (s : String)
  | sentence (s : String)
  | tool_call (payload : String)
  | other
deriving DecidableEq, Repr

/-- `OutputEvent` from `anima/core/events.py`: `{type, data, seq, metadata}`.
The metadata dict is modelled by the only key the pipeline ever writes and
the handlers ever consult here, `is_complete` (absent = `false`). -/
structure OutputEvent where
  type : String
  data : String
  seq : Nat
  metadata_is_complete : Bool
deriving DecidableEq, Repr

/-- The completion marker built by `OutputPipeline._emit_completion_marker`
when the internal counter holds `seq`: an `EventType.SENTENCE` event with
empty data, `seq = self._seq + 1` and `metadata = {"is_complete": True}`. -/
def markerEvent (seq : Nat) : OutputEvent :=
  { type := "sentence", data := "", seq := seq + 1, metadata_is_complete := true }

/-- `_emit_sentence`'s skip test `not text or not text.strip()`: true iff
the text is empty or consists solely of whitespace (stripping all
whitespace leaves nothing). -/
def isBlankText (s : String) : Bool :=
  s.data.all Char.isWhitespace

/-- One iteration body of the `async for` loop of `OutputPipeline.process`
(the part after the interrupt check): given the current `_seq` counter and
accumulated `full_response`, returns the events emitted for this chunk, the
new counter and the new accumulated response.  `_emit_event` increments
`_seq` and then stamps the event with the incremented value. -/
def handleChunk (c : Chunk) (seq : Nat) (resp : String) :
    List OutputEvent × Nat × String :=
  match c with
  | Chunk.text s =>
      if isBlankText s then ([], seq, resp ++ s)
      else ([{ type := "sentence", data := s, seq := seq + 1,
               metadata_is_complete := false }], seq + 1, resp ++ s)
  | Chunk.sentence s =>
      if isBlankText s then ([], seq, resp ++ s)
      else ([{ type := "sentence", data := s, seq := seq + 1,
               metadata_is_complete := false }], seq + 1, resp ++ s)
  | Chunk.tool_call p =>
      ([{ type := "tool_call", data := p, seq := seq + 1,
          metadata_is_complete := false }], seq + 1, resp)
  | Chunk.other => ([], seq, resp)

/-- `interrupt()` (and `ctx.skip()`) arrival times are modelled by an
optional discrete instant `k` on the loop's clock: the flag reads true at
the check performed at instant `i` iff it was set at some `k ≤ i`.  Instant
`i < length` is the top-of-loop check before consuming chunk `i`; instant
`length` is the post-loop check guarding the completion marker. `none`
means the flag is never set during the turn. -/
def flagAt : Option Nat → Nat → Bool
  | none, _ => false
  | some k, i => decide (k ≤ i)

/-- The loop of `OutputPipeline.process` from instant `i` on, carrying the
`_seq` counter and `full_response`; returns the emitted events (in order)
and the final `full_response` (recorded into `ctx.response`).  On loop exit
(stream exhausted or `break`), the completion marker is emitted iff
`self._interrupted` is not set (`ctx.skip_remaining` does not suppress
it). -/
def processFrom (intrAt skipAt : Option Nat) :
    List Chunk → Nat → Nat → String → List OutputEvent × String
  | [], i, seq, resp =>
      (if flagAt intrAt i then [] else [markerEvent seq], resp)
  | c :: rest, i, seq, resp =>
      if flagAt intrAt i || flagAt skipAt i then
        (if flagAt intrAt i then [] else [markerEvent seq], resp)
      else
        let h := handleChunk c seq resp
        let r := processFrom intrAt skipAt rest (i + 1) h.2.1 h.2.2
        (h.1 ++ r.1, r.2)

/-- The instant at which consumption stops: the first instant whose check
sees a set flag, or `length chunks` when the stream is exhausted. -/
def stopIndexFrom (intrAt skipAt : Option Nat) : List Chunk → Nat → Nat
  | [], i => i
  | _ :: rest, i =>
      if flagAt intrAt i || flagAt skipAt i then i
      else stopIndexFrom intrAt skipAt rest (i + 1)

/-- `OutputPipeline.process`: `_seq` and `_interrupted` are reset on entry
(`self._seq = 0`, `self._interrupted = False`), then the stream is consumed.
Returns the emitted events and the final response text. -/
def OutputPipeline.process (chunks : List Chunk) (intrAt skipAt : Option Nat) :
    List OutputEvent × String :=
  processFrom intrAt skipAt chunks 0 0 ""

/-- `ConversationResult` as consulted by the claims: `success`, the `error`
string, and the `metadata["interrupted"]` flag (absent = `false`). -/
structure ConversationResult where
  success : Bool
  error : Option String
  interrupted : Bool
deriving DecidableEq, Repr

/-- `ConversationOrchestrator._process_conversation` around the output
pipeline: `interrupt()` sets both the orchestrator flag and the pipeline
flag at the same instant; after `output_pipeline.process` returns, the
orchestrator checks `self._interrupted` and on interrupt returns
`ConversationResult(success=False, error="处理被中断",
metadata={"interrupted": True})`; otherwise the turn completes with
`success=True`.  (The later emotion-extraction/TTS stages touch neither
`success` nor the `interrupted` metadata.) -/
def processConversation (chunks : List Chunk) (intrAt skipAt : Option Nat) :
    ConversationResult × List OutputEvent × String :=
  let pr := OutputPipeline.process chunks intrAt skipAt
  if flagAt intrAt (stopIndexFrom intrAt skipAt chunks 0) then
    ({ success := false, error := some "处理被中断", interrupted := true },
     pr.1, pr.2)
  else
    ({ success := true, error := none, interrupted := false }, pr.1, pr.2)

/-- An event is the completion marker: `sentence` type, empty data,
`metadata.is_complete = true`. -/
def isMarker (e : OutputEvent) : Bool :=
  e.type = "sentence" && e.data = "" && e.metadata_is_complete

/-! ## Emotion extractor (`emotion_extractor.py`)

Text is modelled as `List Char`.  The regex `\[([a-zA-Z_]+)\]` is modelled
by an explicit left-to-right scan with the exact `finditer` semantics:
at each position try to match `[`, a maximal non-empty run of name
characters, `]`; on success record the match and continue after it, on
failure advance one character.  (The `+` quantifier never benefits from
backtracking here: any shorter run of name characters is followed by a
name character, which is not `]`.) -/

/-- A character matched by `[a-zA-Z_]`. -/
def isTagChar (c : Char) : Bool :=
  ('a' ≤ c && c ≤ 'z') || ('A' ≤ c && c ≤ 'Z') || c = '_'

/-- Python `str.lower()` on the characters the tag group can contain
(ASCII letters and underscore). -/
def lowerChar (c : Char) : Char :=
  if 'A' ≤ c && c ≤ 'Z' then Char.ofNat (c.toNat + 32) else c

/-- The body of the `finditer` scan, indexed by fuel (an upper bound on
the number of characters left to examine) so that the recursion is
structural and computable: at a `[` try to read a maximal non-empty run of
name characters followed by `]`; on a match record
`(match.start(), match.end(), group 1)` and continue after the match,
otherwise advance one character. -/
def findTagsF : Nat → List Char → Nat → List (Nat × Nat × List Char)
  | 0, _, _ => []
  | _ + 1, [], _ => []
  | fuel + 1, c :: rest, pos =>
    if c = '[' then
      match rest.dropWhile isTagChar with
      | ']' :: rest3 =>
        if (rest.takeWhile isTagChar).isEmpty then findTagsF fuel rest (pos + 1)
        else (pos, pos + (rest.takeWhile isTagChar).length + 2,
              rest.takeWhile isTagChar) ::
             findTagsF fuel rest3 (pos + (rest.takeWhile isTagChar).length + 2)
      | _ => findTagsF fuel rest (pos + 1)
    else findTagsF fuel rest (pos + 1)

/-- `EMOTION_PATTERN.finditer(text)`: the list of matches as
`(match.start(), match.end(), group 1)` triples, scanning from offset
`pos`.  The fuel `cs.length` is always sufficient: each recursive step
examines at least one character. -/
def findTags (cs : List Char) (pos : Nat) : List (Nat × Nat × List Char) :=
  findTagsF cs.length cs pos

/-- `EmotionTag` from the source (`duration` is a float never read by
extraction and is omitted): the lowercased tag name and the character
offset of the match in the original text. -/
structure EmotionTag where
  emotion : List Char
  position : Nat
deriving DecidableEq, Repr

/-- The validity test inside `extract`'s loop:
`if self.valid_emotions and emotion not in self.valid_emotions: continue`.
`valid_emotions` is `None` or a set; an empty set is falsy, so it filters
nothing. -/
def keepTag (valid : Option (List (List Char))) (emotion : List Char) : Bool :=
  match valid with
  | none => true
  | some vs => vs.isEmpty || emotion ∈ vs

/-- `result[:start] + result[end:]` — one removal step of
`EmotionExtractor._remove_segments`. -/
def removeOne (text : List Char) (seg : Nat × Nat) : List Char :=
  text.take seg.1 ++ text.drop seg.2

/-- Stable insertion step for
`sorted(segments, key=lambda x: x[0], reverse=True)`. -/
def insertSegDesc (s : Nat × Nat) : List (Nat × Nat) → List (Nat × Nat)
  | [] => [s]
  | t :: ts => if t.1 ≤ s.1 then s :: t :: ts else t :: insertSegDesc s ts

/-- `sorted(segments, key=lambda x: x[0], reverse=True)` (stable,
descending by start offset). -/
def sortSegDesc : List (Nat × Nat) → List (Nat × Nat)
  | [] => []
  | s :: ss => insertSegDesc s (sortSegDesc ss)

/-- `EmotionExtractor._remove_segments`: sort the `(start, end)` pairs by
start descending and cut each span back-to-front.  (On an empty span list
the fold returns the text unchanged, matching the early return.) -/
def remove_segments (text : List Char) (segs : List (Nat × Nat)) : List Char :=
  (sortSegDesc segs).foldl removeOne text

/-- `EmotionExtractor.extract`: the kept matches are the regex matches
whose lowercased group passes the validity test; the result is the list of
`EmotionTag`s (lowercased name, original offset) and the cleaned text with
the kept spans removed.  (For empty input both paths return `("", [])`.) -/
def EmotionExtractor.extract (valid : Option (List (List Char)))
    (text : List Char) : List EmotionTag × List Char :=
  let kept := (findTags text 0).filter
    (fun m => keepTag valid (m.2.2.map lowerChar))
  (kept.map (fun m => { emotion := m.2.2.map lowerChar, position := m.1 }),
   remove_segments text (kept.map (fun m => (m.1, m.2.1))))

/-- Insertion of a token at a character offset (`s[:pos] + tok + s[pos:]`),
used to state the round-trip property of the claim. -/
def insertAt (text : List Char) (pos : Nat) (tok : List Char) : List Char :=
  text.take pos ++ tok ++ text.drop pos

/-- Re-inserting each extracted tag `[emotion]` at its stored position into
the cleaned text, in extraction (left-to-right) order. -/
def reinsertTags (cleaned : List Char) (tags : List EmotionTag) : List Char :=
  tags.foldl (fun acc t => insertAt acc t.position ('[' :: t.emotion ++ [']'])) cleaned

/-- The claim's first conjunct: the text contains a `[tag]` token for a
valid tag. -/
def hasValidTag (valid : Option (List (List Char))) (text : List Char) : Bool :=
  (findTags text 0).any (fun m => keepTag valid (m.2.2.map lowerChar))

/-! ## VAD state machine (`silero_vad.py`)

The float smoothing/threshold decision (`get_smoothed_values` and the
`is_speech` comparison, floating point) is abstracted as the Boolean
`is_speech` input of each window, which is the granularity at which the
claims speak ("speech window" / "non-speech window").  A window's int16
PCM bytes are modelled as a `List Nat`; the write-only float diagnostics
(`probs`, `dbs`) are omitted. -/

/-- `VADState` from `vad/interface.py`. -/
inductive VADState where
  | IDLE
  | ACTIVE
  | INACTIVE
deriving DecidableEq, Repr

/-- The hysteresis parameters consulted by `SileroStateMachine.process`. -/
structure VADConfig where
  required_hits : Nat
  required_misses : Nat
deriving DecidableEq, Repr

/-- `VADResult` as produced by the state machine. -/
structure VADResult where
  audio_data : List Nat
  is_speech_start : Bool
  is_speech_end : Bool
  state : VADState
deriving DecidableEq, Repr

/-- The mutable fields of `SileroStateMachine` read or written by
`process`: state, hit/miss counters, the utterance byte buffer and the
pre-roll deque (`maxlen=20`, newest last). -/
structure SileroStateMachine where
  state : VADState
  hit_count : Nat
  miss_count : Nat
  bytes : List Nat
  pre_buffer : List (List Nat)
deriving DecidableEq, Repr

/-- A fresh `SileroStateMachine.__init__` state. -/
def initMachine : SileroStateMachine :=
  { state := VADState.IDLE, hit_count := 0, miss_count := 0,
    bytes := [], pre_buffer := [] }

/-- `deque(maxlen=20).append`: drop the oldest element when full. -/
def dequeAppend20 (q : List (List Nat)) (c : List Nat) : List (List Nat) :=
  (if q.length < 20 then q else q.drop 1) ++ [c]

/-- `SileroStateMachine.process` on one window, given the window's
speech/non-speech decision and its int16 bytes.  Returns the next machine
and the emitted `VADResult` (`none` when the code returns `None`). -/
def SileroStateMachine.process (cfg : VADConfig) (m : SileroStateMachine)
    (is_speech : Bool) (chunk : List Nat) :
    SileroStateMachine × Option VADResult :=
  match m.state with
  | VADState.IDLE =>
    let pre := dequeAppend20 m.pre_buffer chunk
    if is_speech then
      if cfg.required_hits ≤ m.hit_count + 1 then
        ({ state := VADState.ACTIVE, hit_count := 0, miss_count := m.miss_count,
           bytes := m.bytes ++ chunk, pre_buffer := pre },
         some { audio_data := [], is_speech_start := true,
                is_speech_end := false, state := VADState.ACTIVE })
      else
        ({ m with pre_buffer := pre, hit_count := m.hit_count + 1 }, none)
    else
      ({ m with pre_buffer := pre, hit_count := 0 }, none)
  | VADState.ACTIVE =>
    let bs := m.bytes ++ chunk
    if is_speech then
      ({ m with bytes := bs, miss_count := 0 }, none)
    else
      if cfg.required_misses ≤ m.miss_count + 1 then
        ({ m with bytes := bs, miss_count := 0, state := VADState.INACTIVE }, none)
      else
        ({ m with bytes := bs, miss_count := m.miss_count + 1 }, none)
  | VADState.INACTIVE =>
    let bs := m.bytes ++ chunk
    if is_speech then
      if cfg.required_hits ≤ m.hit_count + 1 then
        ({ m with bytes := bs, hit_count := 0, miss_count := 0, state := VADState.ACTIVE }, none)
      else
        ({ m with bytes := bs, hit_count := m.hit_count + 1 }, none)
    else
      if cfg.required_misses ≤ m.miss_count + 1 then
        let audio := m.pre_buffer.flatten ++ bs
        if 8000 < audio.length then
          ({ state := VADState.IDLE, hit_count := 0, miss_count := 0,
             bytes := [], pre_buffer := [] },
           some { audio_data := audio, is_speech_start := false,
                  is_speech_end := true, state := VADState.IDLE })
        else
          ({ state := VADState.IDLE, hit_count := 0, miss_count := 0,
             bytes := [], pre_buffer := [] }, none)
      else
        ({ m with bytes := bs, hit_count := 0, miss_count := m.miss_count + 1 }, none)

/-- Run the state machine over a sequence of windows (speech decision and
bytes per window); returns the final machine and the per-window emissions
in order. -/
def runVAD (cfg : VADConfig) (m : SileroStateMachine) :
    List (Bool × List Nat) → SileroStateMachine × List (Option VADResult)
  | [] => (m, [])
  | w :: rest =>
    let s := SileroStateMachine.process cfg m w.1 w.2
    let r := runVAD cfg s.1 rest
    (r.1, s.2 :: r.2)

/-- The machine state after consuming a window sequence. -/
def machineAfter (cfg : VADConfig) (m : SileroStateMachine)
    (ws : List (Bool × List Nat)) : SileroStateMachine :=
  (runVAD cfg m ws).1

/-! ## Position-based timeline strategy (`position_based.py`, `base.py`)

Times are modelled by `ℚ` (exact arithmetic; the file's Python uses
floats, and the claim's ±1 ms tolerance is what absorbs rounding). -/

/-- `TimelineSegment` from `strategies/base.py`. -/
structure TimelineSegment where
  emotion : String
  start_time : ℚ
  end_time : ℚ
  intensity : ℚ
deriving DecidableEq, Repr

/-- `TimelineSegment.duration = end_time - start_time`. -/
def TimelineSegment.duration (s : TimelineSegment) : ℚ :=
  s.end_time - s.start_time

/-- `TimelineConfig` defaults from `strategies/base.py`. -/
structure TimelineConfig where
  default_emotion : String := "neutral"
  min_segment_duration : ℚ := 1/10
  transition_duration : ℚ := 3/10
deriving DecidableEq, Repr

/-- The loop of `_calculate_even_segments`: segment `i` spans
`[i*d, (i+1)*d]` where `d = audio_duration / len(emotions)`;
`_calculate_intensity` always returns `1.0`. -/
def evenSegsAux (d : ℚ) : List String → Nat → List TimelineSegment
  | [], _ => []
  | e :: es, i =>
    { emotion := e, start_time := i * d, end_time := (i + 1 : Nat) * d,
      intensity := 1 } :: evenSegsAux d es (i + 1)

/-- `PositionBasedStrategy._calculate_even_segments`. -/
def calculate_even_segments (emotions : List String) (audio_duration : ℚ) :
    List TimelineSegment :=
  evenSegsAux (audio_duration / emotions.length) emotions 0

/-- Stable insertion step of Python's `sorted(key=lambda s: s.start_time)`. -/
def insertByStart (s : TimelineSegment) :
    List TimelineSegment → List TimelineSegment
  | [] => [s]
  | t :: ts =>
    if s.start_time ≤ t.start_time then s :: t :: ts else t :: insertByStart s ts

/-- `sorted(segments, key=lambda s: s.start_time)` (stable, ascending). -/
def sortByStart : List TimelineSegment → List TimelineSegment
  | [] => []
  | s :: ss => insertByStart s (sortByStart ss)

/-- The merging loop of `merge_adjacent_same_emotion` with `current` as
accumulator: merge the next segment into `current` when it has the same
emotion and `next.start_time <= current.end_time`. -/
def mergeLoop (current : TimelineSegment) :
    List TimelineSegment → List TimelineSegment
  | [] => [current]
  | nxt :: rest =>
    if nxt.emotion = current.emotion && nxt.start_time ≤ current.end_time then
      mergeLoop { emotion := current.emotion, start_time := current.start_time,
                  end_time := max current.end_time nxt.end_time,
                  intensity := max current.intensity nxt.intensity } rest
    else current :: mergeLoop nxt rest

/-- `ITimelineStrategy.merge_adjacent_same_emotion`. -/
def merge_adjacent_same_emotion (segs : List TimelineSegment) :
    List TimelineSegment :=
  match sortByStart segs with
  | [] => []
  | s :: rest => mergeLoop s rest

/-- The gap-filling loop of `ensure_full_coverage`, carrying `last_end`;
returns the filled list and the final `last_end`.  A gap segment takes the
default emotion and the dataclass default intensity `1.0`. -/
def coverLoop (emo : String) :
    List TimelineSegment → ℚ → List TimelineSegment × ℚ
  | [], last => ([], last)
  | s :: rest, last =>
    let gap : List TimelineSegment :=
      if last < s.start_time then
        [{ emotion := emo, start_time := last, end_time := s.start_time,
           intensity := 1 }]
      else []
    let r := coverLoop emo rest (max last s.end_time)
    (gap ++ s :: r.1, r.2)

/-- `ITimelineStrategy.ensure_full_coverage`. -/
def ensure_full_coverage (segs : List TimelineSegment) (audio_duration : ℚ)
    (emo : String) : List TimelineSegment :=
  if segs.isEmpty then
    [{ emotion := emo, start_time := 0, end_time := audio_duration,
       intensity := 1 }]
  else
    let r := coverLoop emo (sortByStart segs) 0
    r.1 ++ (if r.2 < audio_duration then
      [{ emotion := emo, start_time := r.2, end_time := audio_duration,
         intensity := 1 }] else [])

/-- Python's `max(segments, key=lambda s: s.duration)`: first maximal
element (a later element replaces the champion only when strictly
longer). -/
def maxByDuration (s : TimelineSegment) :
    List TimelineSegment → TimelineSegment
  | [] => s
  | t :: ts =>
    if s.duration < t.duration then maxByDuration t ts else maxByDuration s ts

/-- `PositionBasedStrategy._filter_short_segments`: keep segments with
`duration >= min_duration`; if that drops everything (and the input was
non-empty) keep only the longest input segment. -/
def filter_short_segments (segs : List TimelineSegment) (min_duration : ℚ) :
    List TimelineSegment :=
  let filtered := segs.filter (fun s => min_duration ≤ s.duration)
  if filtered.isEmpty then
    match segs with
    | [] => []
    | s :: rest => [maxByDuration s rest]
  else filtered

/-- `PositionBasedStrategy.calculate` (the instance flag
`_enable_smoothing` is the `smoothing` argument): validation error is
`Except.error` (`validate_input` fails iff `audio_duration <= 0` for a
well-typed call); otherwise even split, optional merge, gap-fill, then
short-segment filtering, in the source's order. -/
def PositionBasedStrategy.calculate (cfg : TimelineConfig) (smoothing : Bool)
    (emotions : List String) (audio_duration : ℚ) :
    Except String (List TimelineSegment) :=
  if audio_duration ≤ 0 then Except.error "无效的输入参数"
  else if emotions.isEmpty then
    Except.ok [{ emotion := cfg.default_emotion, start_time := 0,
                 end_time := audio_duration, intensity := 1 }]
  else
    let s1 := calculate_even_segments emotions audio_duration
    let s2 := if smoothing then merge_adjacent_same_emotion s1 else s1
    let s3 := ensure_full_coverage s2 audio_duration cfg.default_emotion
    Except.ok (filter_short_segments s3 cfg.min_segment_duration)

/-- Sum of segment durations. -/
def sumDur (segs : List TimelineSegment) : ℚ :=
  (segs.map TimelineSegment.duration).sum

/-- Contiguous chain of segments from `a` to `b`: each segment starts where
the previous one ended (the first at `a`, the last ending at `b`) and is
non-degenerate.  This is exactly "ordered, non-overlapping, fully covering
`[a, b]`". -/
def chainFrom : ℚ → List TimelineSegment → ℚ → Prop
  | a, [], b => a = b
  | a, s :: rest, b => s.start_time = a ∧ a < s.end_time ∧ chainFrom s.end_time rest b

/-! ## Event bus (`eventbus/bus.py`)

Handlers are opaque side-effecting callables; they are modelled by
identifiers (`Nat`), and whether a given handler raises on the event of
the current `emit` call is modelled by a predicate `ok : Nat → Bool`.
Subscription entries are the `(-priority, handler, subscription)` tuples
of the source; the per-type dict is an association list. -/

/-- One entry of a subscription list: priority, handler id, and the
subscription's `is_active` flag. -/
structure BusEntry where
  priority : Int
  handler : Nat
  active : Bool
deriving DecidableEq, Repr

/-- Stable insertion step for `list.sort(key=lambda x: x[0])` on entries
keyed by `-priority` (ascending key = descending priority). -/
def insertBusAsc (e : BusEntry) : List BusEntry → List BusEntry
  | [] => [e]
  | t :: ts => if -e.priority ≤ -t.priority then e :: t :: ts else t :: insertBusAsc e ts

/-- Python's stable `list.sort(key=lambda x: x[0])` on `(-priority, ...)`
entries. -/
def sortBusByNegPriority : List BusEntry → List BusEntry
  | [] => []
  | e :: es => insertBusAsc e (sortBusByNegPriority es)

/-- The `EventBus` state consulted by `emit`: per-type subscription lists
and the global subscription list. -/
structure EventBus where
  subscribers : List (String × List BusEntry)
  global_subscribers : List BusEntry
deriving DecidableEq, Repr

/-- `EventBus.__init__`. -/
def emptyBus : EventBus := { subscribers := [], global_subscribers := [] }

/-- `self._subscribers.get(event_type, [])` (a type absent from the dict
behaves as the empty list, as in `emit`'s membership test). -/
def lookupSubs (subs : List (String × List BusEntry)) (etype : String) :
    List BusEntry :=
  match subs.find? (fun p => p.1 = etype) with
  | some p => p.2
  | none => []

/-- Store a type's subscription list in the dict. -/
def setSubs : List (String × List BusEntry) → String → List BusEntry →
    List (String × List BusEntry)
  | [], etype, l => [(etype, l)]
  | p :: ps, etype, l =>
    if p.1 = etype then (etype, l) :: ps else p :: setSubs ps etype l

/-- `EventBus.subscribe`: append the new `(-priority, handler, sub)` entry
to the type's list and re-sort it stably by `-priority`. -/
def EventBus.subscribe (bus : EventBus) (etype : String) (h : Nat)
    (priority : Int) : EventBus :=
  let l := sortBusByNegPriority (lookupSubs bus.subscribers etype ++
    [{ priority := priority, handler := h, active := true }])
  { bus with subscribers := setSubs bus.subscribers etype l }

/-- `EventBus.subscribe_all`: same, on the global list. -/
def EventBus.subscribe_all (bus : EventBus) (h : Nat) (priority : Int) :
    EventBus :=
  let l := sortBusByNegPriority (bus.global_subscribers ++
    [{ priority := priority, handler := h, active := true }])
  { bus with global_subscribers := l }

/-- One dispatch loop of `EventBus.emit` over a subscription list: skip
inactive entries, invoke every remaining handler in list order (an
exception — `ok h = false` — is logged and the loop continues), and count
the handlers that completed without raising.  Returns the invocation order
and `processed_count`. -/
def dispatchList (ok : Nat → Bool) : List BusEntry → List Nat × Nat
  | [] => ([], 0)
  | e :: rest =>
    if e.active then
      let r := dispatchList ok rest
      (e.handler :: r.1, (if ok e.handler then 1 else 0) + r.2)
    else dispatchList ok rest

/-- `EventBus.emit`: dispatch to the event type's subscribers, then to the
global subscribers; return the invocation order and the total
`processed_count`. -/
def EventBus.emit (bus : EventBus) (etype : String) (ok : Nat → Bool) :
    List Nat × Nat :=
  let t := dispatchList ok (lookupSubs bus.subscribers etype)
  let g := dispatchList ok bus.global_subscribers
  (t.1 ++ g.1, t.2 + g.2)

/-- A subscription-building operation. -/
inductive BusOp where
  | sub (etype : String) (h : Nat) (priority : Int)
  | subAll (h : Nat) (priority : Int)
deriving DecidableEq, Repr

/-- Apply a sequence of `subscribe`/`subscribe_all` calls to a bus. -/
def applyOps : EventBus → List BusOp → EventBus
  | bus, [] => bus
  | bus, BusOp.sub t h p :: rest => applyOps (bus.subscribe t h p) rest
  | bus, BusOp.subAll h p :: rest => applyOps (bus.subscribe_all h p) rest

/-- A subscription list is in descending priority order. -/
def descByPriority (l : List BusEntry) : Prop :=
  List.Chain' (fun a b => b.priority ≤ a.priority) l

/-! ## Lemmas about the output pipeline -/

/-- Each loop iteration emits no event (leaving the counter unchanged) or
exactly one event stamped with the incremented counter, never marked
complete, and with non-empty data when it is a `sentence` event. -/
theorem handleChunk_spec (c : Chunk) (seq : Nat) (resp : String) :
    ((handleChunk c seq resp).1 = [] ∧ (handleChunk c seq resp).2.1 = seq) ∨
    (∃ e, (handleChunk c seq resp).1 = [e] ∧
      (handleChunk c seq resp).2.1 = seq + 1 ∧ e.seq = seq + 1 ∧
      e.metadata_is_complete = false ∧ (e.type = "sentence" → e.data ≠ "")) := by
  cases c with
  | text s =>
    by_cases hb : isBlankText s
    · exact Or.inl (by simp [handleChunk, hb])
    · refine Or.inr ⟨{ type := "sentence", data := s, seq := seq + 1, metadata_is_complete := false }, by simp [handleChunk, hb], by simp [handleChunk, hb], rfl, rfl, ?_⟩
      intro _ hs
      apply hb
      show isBlankText s = true
      have hse : s = "" := hs
      rw [hse]
      decide
  | sentence s =>
    by_cases hb : isBlankText s
    · exact Or.inl (by simp [handleChunk, hb])
    · refine Or.inr ⟨{ type := "sentence", data := s, seq := seq + 1, metadata_is_complete := false }, by simp [handleChunk, hb], by simp [handleChunk, hb], rfl, rfl, ?_⟩
      intro _ hs
      apply hb
      show isBlankText s = true
      have hse : s = "" := hs
      rw [hse]
      decide
  | tool_call p =>
    exact Or.inr ⟨_, rfl, rfl, rfl, rfl, by intro h; simp [handleChunk] at h⟩
  | other => exact Or.inl ⟨rfl, rfl⟩

/-- With neither flag ever set, the loop consumes the whole stream; the
emitted events are a body whose `seq`s are exactly `seq+1, …, seq+n`,
followed by the completion marker built from the final counter
`seq + n`. -/
theorem processFrom_none_spec (chunks : List Chunk) (i seq : Nat) (resp : String) :
    ∃ body r, processFrom none none chunks i seq resp
        = (body ++ [markerEvent (seq + body.length)], r) ∧
      body.map OutputEvent.seq = List.range' (seq + 1) body.length ∧
      ∀ e ∈ body, e.metadata_is_complete = false ∧
        (e.type = "sentence" → e.data ≠ "") := by
  induction chunks generalizing i seq resp with
  | nil => exact ⟨[], resp, by simp [processFrom, flagAt], by simp, by simp⟩
  | cons c rest ih =>
    obtain ⟨body, r, hpr, hmap, hprop⟩ :=
      ih (i + 1) (handleChunk c seq resp).2.1 (handleChunk c seq resp).2.2
    have hunf : processFrom none none (c :: rest) i seq resp
        = ((handleChunk c seq resp).1 ++
            (body ++ [markerEvent ((handleChunk c seq resp).2.1 + body.length)]),
           r) := by
      simp [processFrom, flagAt, hpr]
    rcases handleChunk_spec c seq resp with ⟨h1, h2⟩ | ⟨e, h1, h2, hseq, hmc, hty⟩
    · refine ⟨body, r, ?_, by rw [hmap, h2], hprop⟩
      rw [hunf, h1, h2]
      simp
    · refine ⟨e :: body, r, ?_, ?_, ?_⟩
      · rw [hunf, h1, h2]
        have harith : seq + 1 + body.length = seq + (e :: body).length := by
          simp only [List.length_cons]
          omega
        rw [harith]
        simp
      · simp only [List.map_cons, hmap, hseq, h2, List.length_cons]
        rw [List.range'_succ]
      · intro x hx
        rcases List.mem_cons.mp hx with hx | hx
        · subst hx; exact ⟨hmc, hty⟩
        · exact hprop x hx

/-- In general (arbitrary interrupt/skip instants) the emitted events are
a marker-free body, followed by the completion marker exactly when the
interrupted flag is unset at the instant consumption stops. -/
theorem processFrom_marker_spec (intrAt skipAt : Option Nat)
    (chunks : List Chunk) (i seq : Nat) (resp : String) :
    ∃ body S, (processFrom intrAt skipAt chunks i seq resp).1
        = body ++ (if flagAt intrAt (stopIndexFrom intrAt skipAt chunks i)
                   then [] else [markerEvent S]) ∧
      ∀ e ∈ body, isMarker e = false := by
  induction chunks generalizing i seq resp with
  | nil => exact ⟨[], seq, by simp [processFrom, stopIndexFrom], by simp⟩
  | cons c rest ih =>
    by_cases hf : (flagAt intrAt i || flagAt skipAt i) = true
    · refine ⟨[], seq, ?_, by simp⟩
      simp [processFrom, stopIndexFrom, hf]
    · obtain ⟨body, S, hpr, hprop⟩ :=
        ih (i + 1) (handleChunk c seq resp).2.1 (handleChunk c seq resp).2.2
      refine ⟨(handleChunk c seq resp).1 ++ body, S, ?_, ?_⟩
      · simp only [processFrom, stopIndexFrom, hf, if_false, Bool.false_eq_true]
        rw [List.append_assoc, ← hpr]
      · intro x hx
        rcases List.mem_append.mp hx with hx | hx
        · rcases handleChunk_spec c seq resp with ⟨h1, _⟩ | ⟨e, h1, _, _, hmc, _⟩
          · rw [h1] at hx; cases hx
          · rw [h1] at hx
            rcases List.mem_singleton.mp hx with rfl
            simp [isMarker, hmc]
        · exact hprop x hx

/-- With no skip, an interrupt instant inside the stream is exactly where
consumption stops. -/
theorem stopIndexFrom_intr (k : Nat) (chunks : List Chunk) (i : Nat)
    (hik : i ≤ k) (hk : k < i + chunks.length) :
    stopIndexFrom (some k) none chunks i = k := by
  induction chunks generalizing i with
  | nil => simp at hk; omega
  | cons c rest ih =>
    by_cases hflag : (flagAt (some k) i || flagAt none i) = true
    · simp only [flagAt, Bool.or_false, decide_eq_true_eq] at hflag
      simp only [stopIndexFrom, flagAt, Bool.or_false]
      rw [if_pos (by simpa using hflag)]
      omega
    · simp only [flagAt, Bool.or_false, decide_eq_true_eq] at hflag
      have hik' : i + 1 ≤ k := by omega
      simp only [stopIndexFrom, flagAt, Bool.or_false]
      rw [if_neg (by simpa using hflag)]
      exact ih (i + 1) hik' (by simp at hk ⊢; omega)

/-- C1: For every turn in which the agent stream ends without `interrupt()`
having been called and the accumulated response is non-empty, the output
pipeline emits exactly one completion marker: a `sentence` event with empty
data, `metadata.is_complete = true`, and a `seq` strictly greater than the
`seq` of every earlier `sentence` event of that turn.  (Formally: the
emitted events are a body containing no completion marker, followed by the
single marker, whose `seq` exceeds the `seq` of every body event.) -/
theorem C1_exactly_one_completion_marker (chunks : List Chunk)
    (_hresp : (OutputPipeline.process chunks none none).2 ≠ "") :
    ∃ body S, (OutputPipeline.process chunks none none).1
        = body ++ [markerEvent S] ∧
      isMarker (markerEvent S) = true ∧
      (∀ e ∈ body, isMarker e = false) ∧
      (∀ e ∈ body, e.type = "sentence" → e.seq < (markerEvent S).seq) := by
  obtain ⟨body, r, hpr, hmap, hprop⟩ := processFrom_none_spec chunks 0 0 ""
  refine ⟨body, body.length, ?_, by simp [isMarker, markerEvent], ?_, ?_⟩
  · show (processFrom none none chunks 0 0 "").1 = _
    rw [hpr]
    simp
  · intro e he
    simp [isMarker, (hprop e he).1]
  · intro e he _
    have hmem : e.seq ∈ body.map OutputEvent.seq := List.mem_map_of_mem _ he
    rw [hmap] at hmem
    have := List.mem_range'_1.mp hmem
    simp [markerEvent]
    omega

/-- Witness for C1 at the concrete stream `[text "hi"]`. -/
theorem C1_exactly_one_completion_marker_witness :
    (OutputPipeline.process [Chunk.text "hi"] none none).2 ≠ "" ∧
    (∃ body S, (OutputPipeline.process [Chunk.text "hi"] none none).1
        = body ++ [markerEvent S] ∧
      isMarker (markerEvent S) = true ∧
      (∀ e ∈ body, isMarker e = false) ∧
      (∀ e ∈ body, e.type = "sentence" → e.seq < (markerEvent S).seq)) :=
  ⟨by decide, C1_exactly_one_completion_marker [Chunk.text "hi"] (by decide)⟩

/-- C2 counterexample: the claim says the `seq` values carried by the
emitted events start at 0, but on the turn `[text "hi"]` (no interrupt)
the pipeline emits events carrying `seq` 1 and 2 — no emitted event of the
turn carries `seq = 0`, because `_emit_event` increments `_seq` before
stamping it. -/
theorem C2_seq_starts_at_zero_counterexample :
    (OutputPipeline.process [Chunk.text "hi"] none none).1.map OutputEvent.seq
      = [1, 2] ∧
    ∀ e ∈ (OutputPipeline.process [Chunk.text "hi"] none none).1, e.seq ≠ 0 := by
  decide

/-- C2 amended: within one turn (no interrupt) the events emitted by the
output pipeline carry strictly increasing `seq` values; the counter starts
at 0 and is incremented before each emission, so the `j`-th emitted event
carries `seq = j + 1` (the whole turn's seq list is `1, 2, …, n + 1`,
starting at 1, not 0), and the completion marker is the last event and
uses `seq = last + 1` (one more than the final counter value, which is the
`seq` of the last earlier emission). -/
theorem C2_seq_amended (chunks : List Chunk) :
    ∃ body S, (OutputPipeline.process chunks none none).1
        = body ++ [markerEvent S] ∧
      S = body.length ∧
      (OutputPipeline.process chunks none none).1.map OutputEvent.seq
        = List.range' 1 (body.length + 1) ∧
      List.Pairwise (fun a b => a.seq < b.seq)
        (OutputPipeline.process chunks none none).1 := by
  obtain ⟨body, r, hpr, hmap, hprop⟩ := processFrom_none_spec chunks 0 0 ""
  have hevs : (OutputPipeline.process chunks none none).1
      = body ++ [markerEvent body.length] := by
    show (processFrom none none chunks 0 0 "").1 = _
    rw [hpr]
    simp
  have hmapfull : (OutputPipeline.process chunks none none).1.map OutputEvent.seq
      = List.range' 1 (body.length + 1) := by
    rw [hevs, List.map_append, hmap]
    have hc := @List.range'_concat 1 1 body.length
    simp only [zero_add, one_mul] at hc
    rw [hc]
    simp [markerEvent]
    omega
  refine ⟨body, body.length, hevs, rfl, hmapfull, ?_⟩
  have hpw : ((OutputPipeline.process chunks none none).1.map
      OutputEvent.seq).Pairwise (· < ·) := by
    rw [hmapfull]
    exact List.pairwise_lt_range' ..
  exact List.pairwise_map.mp hpw

/-- C3: if `interrupt()` is called while the output pipeline is consuming
the agent stream during turn T (instant `k` strictly inside the stream,
no skip), the pipeline stops consuming at instant `k`, no completion
marker is emitted for T, and the turn returns a failure result with
`success = false` and `interrupted = true`. -/
theorem C3_interrupt_stops_and_fails (chunks : List Chunk) (k : Nat)
    (hk : k < chunks.length) :
    stopIndexFrom (some k) none chunks 0 = k ∧
    (∀ e ∈ (processConversation chunks (some k) none).2.1, isMarker e = false) ∧
    (processConversation chunks (some k) none).1.success = false ∧
    (processConversation chunks (some k) none).1.interrupted = true := by
  have hstop : stopIndexFrom (some k) none chunks 0 = k :=
    stopIndexFrom_intr k chunks 0 (Nat.zero_le k) (by omega)
  have hflag : flagAt (some k) (stopIndexFrom (some k) none chunks 0) = true := by
    rw [hstop]; simp [flagAt]
  obtain ⟨body, S, hpr, hprop⟩ := processFrom_marker_spec (some k) none chunks 0 0 ""
  rw [hflag] at hpr
  simp only [if_true, List.append_nil] at hpr
  refine ⟨hstop, ?_, ?_, ?_⟩
  · intro e he
    have : (processConversation chunks (some k) none).2.1
        = (OutputPipeline.process chunks (some k) none).1 := by
      simp only [processConversation, hflag, if_true]
    rw [this] at he
    have : (OutputPipeline.process chunks (some k) none).1 = body := hpr
    rw [this] at he
    exact hprop e he
  · simp only [processConversation, hflag, if_true]
  · simp only [processConversation, hflag, if_true]

/-- Witness for C3: interrupt at instant 1 of a two-chunk stream. -/
theorem C3_interrupt_stops_and_fails_witness :
    (1 < ([Chunk.text "hi", Chunk.text "yo"] : List Chunk).length) ∧
    (stopIndexFrom (some 1) none [Chunk.text "hi", Chunk.text "yo"] 0 = 1 ∧
    (∀ e ∈ (processConversation [Chunk.text "hi", Chunk.text "yo"] (some 1) none).2.1,
      isMarker e = false) ∧
    (processConversation [Chunk.text "hi", Chunk.text "yo"] (some 1) none).1.success = false ∧
    (processConversation [Chunk.text "hi", Chunk.text "yo"] (some 1) none).1.interrupted = true) :=
  ⟨by decide, C3_interrupt_stops_and_fails [Chunk.text "hi", Chunk.text "yo"] 1 (by decide)⟩

/-- C9: the completion marker is emitted exactly when the pipeline's
interrupted flag is unset at the instant consumption stops — one marker
when unset (including an empty or all-blank stream and a stop caused by
`ctx.skip_remaining`), zero when set; nothing else suppresses or
duplicates it. -/
theorem C9_marker_iff_not_interrupted (chunks : List Chunk)
    (intrAt skipAt : Option Nat) :
    (OutputPipeline.process chunks intrAt skipAt).1.countP isMarker
      = (if flagAt intrAt (stopIndexFrom intrAt skipAt chunks 0) then 0 else 1) := by
  obtain ⟨body, S, hpr, hprop⟩ :=
    processFrom_marker_spec intrAt skipAt chunks 0 0 ""
  have hevs : (OutputPipeline.process chunks intrAt skipAt).1
      = body ++ (if flagAt intrAt (stopIndexFrom intrAt skipAt chunks 0)
                 then [] else [markerEvent S]) := hpr
  rw [hevs, List.countP_append]
  have hbody : body.countP isMarker = 0 := by
    rw [List.countP_eq_zero]
    intro e he
    simp [hprop e he]
  rw [hbody]
  by_cases hflag : flagAt intrAt (stopIndexFrom intrAt skipAt chunks 0) = true
  · simp [hflag]
  · simp only [Bool.not_eq_true] at hflag
    simp [hflag, List.countP_cons, isMarker, markerEvent]

/-! ## Lemmas about the event bus -/

/-- Stable insertion keeps descending-priority order. -/
theorem insertBusAsc_sorted (e : BusEntry) (l : List BusEntry)
    (h : descByPriority l) : descByPriority (insertBusAsc e l) := by
  induction l with
  | nil => simp [insertBusAsc, descByPriority]
  | cons t ts ih =>
    simp only [insertBusAsc]
    by_cases hc : -e.priority ≤ -t.priority
    · rw [if_pos hc]
      exact List.chain'_cons.mpr ⟨by omega, h⟩
    · rw [if_neg hc]
      have hts : descByPriority ts := (List.chain'_cons'.mp h).2
      cases ts with
      | nil =>
        simp only [insertBusAsc]
        exact List.chain'_cons.mpr ⟨by omega, List.chain'_singleton e⟩
      | cons t2 ts2 =>
        have hrel : t2.priority ≤ t.priority := (List.chain'_cons.mp h).1
        have hins := ih hts
        simp only [insertBusAsc] at hins ⊢
        by_cases hc2 : -e.priority ≤ -t2.priority
        · rw [if_pos hc2] at hins ⊢
          exact List.chain'_cons.mpr ⟨by omega, hins⟩
        · rw [if_neg hc2] at hins ⊢
          exact List.chain'_cons.mpr ⟨hrel, hins⟩

/-- The stable sort produces a descending-priority list. -/
theorem sortBus_sorted (l : List BusEntry) :
    descByPriority (sortBusByNegPriority l) := by
  induction l with
  | nil => simp [sortBusByNegPriority, descByPriority]
  | cons e es ih => exact insertBusAsc_sorted e _ ih

/-- Membership through stable insertion. -/
theorem insertBusAsc_mem (x e : BusEntry) (l : List BusEntry) :
    x ∈ insertBusAsc e l ↔ x = e ∨ x ∈ l := by
  induction l with
  | nil => simp [insertBusAsc]
  | cons t ts ih =>
    simp only [insertBusAsc]
    by_cases hc : -e.priority ≤ -t.priority
    · rw [if_pos hc]; simp
    · rw [if_neg hc]
      simp only [List.mem_cons, ih]
      tauto

/-- Membership through the stable sort. -/
theorem sortBus_mem (x : BusEntry) (l : List BusEntry) :
    x ∈ sortBusByNegPriority l ↔ x ∈ l := by
  induction l with
  | nil => simp [sortBusByNegPriority]
  | cons e es ih =>
    simp only [sortBusByNegPriority, insertBusAsc_mem, ih, List.mem_cons]

/-- Any property of subscription lists that holds for the empty list and
for every list stored in the dict holds for a lookup result. -/
theorem lookupSubs_prop (Q : List BusEntry → Prop)
    (subs : List (String × List BusEntry)) (etype : String)
    (hnil : Q []) (h : ∀ p ∈ subs, Q p.2) :
    Q (lookupSubs subs etype) := by
  induction subs with
  | nil => exact hnil
  | cons p ps ih =>
    by_cases hp : p.1 = etype
    · have heq : lookupSubs (p :: ps) etype = p.2 := by
        simp [lookupSubs, List.find?, hp]
      rw [heq]
      exact h p (List.mem_cons_self p ps)
    · have heq : lookupSubs (p :: ps) etype = lookupSubs ps etype := by
        simp [lookupSubs, List.find?, hp]
      rw [heq]
      exact ih (fun q hq => h q (List.mem_cons_of_mem p hq))

/-- Membership after storing a list in the dict. -/
theorem setSubs_mem (subs : List (String × List BusEntry)) (etype : String)
    (l : List BusEntry) (p : String × List BusEntry)
    (hp : p ∈ setSubs subs etype l) : p = (etype, l) ∨ p ∈ subs := by
  induction subs with
  | nil => simpa [setSubs] using hp
  | cons q qs ih =>
    simp only [setSubs] at hp
    by_cases hq : (q.1 = etype)
    · rw [if_pos hq] at hp
      rcases List.mem_cons.mp hp with h | h
      · exact Or.inl h
      · exact Or.inr (List.mem_cons_of_mem q h)
    · rw [if_neg hq] at hp
      rcases List.mem_cons.mp hp with h | h
      · exact Or.inr (by simp [h])
      · rcases ih h with h2 | h2
        · exact Or.inl h2
        · exact Or.inr (List.mem_cons_of_mem q h2)

/-- Well-formedness maintained by the subscribe operations: every stored
subscription list (per-type and global) is in descending priority order
and all its entries are active. -/
def busOk (bus : EventBus) : Prop :=
  (∀ p ∈ bus.subscribers, descByPriority p.2 ∧ ∀ x ∈ p.2, x.active = true) ∧
  descByPriority bus.global_subscribers ∧
  ∀ x ∈ bus.global_subscribers, x.active = true

/-- A bus built from `subscribe`/`subscribe_all` calls is well-formed. -/
theorem applyOps_busOk (ops : List BusOp) (bus : EventBus) (h : busOk bus) :
    busOk (applyOps bus ops) := by
  induction ops generalizing bus with
  | nil => exact h
  | cons op rest ih =>
    cases op with
    | sub t hd p =>
      refine ih _ ⟨?_, h.2.1, h.2.2⟩
      intro q hq
      rcases setSubs_mem _ _ _ _ hq with rfl | hq2
      · constructor
        · exact sortBus_sorted _
        · intro x hx
          rw [sortBus_mem] at hx
          rcases List.mem_append.mp hx with hx | hx
          · revert hx
            refine lookupSubs_prop
              (fun l => x ∈ l → x.active = true) bus.subscribers t ?_ ?_
            · intro hx; cases hx
            · intro q2 hq2 hx
              exact (h.1 q2 hq2).2 x hx
          · rcases List.mem_singleton.mp hx with rfl
            rfl
      · exact h.1 q hq2
    | subAll hd p =>
      refine ih _ ⟨h.1, sortBus_sorted _, ?_⟩
      intro x hx
      simp only [EventBus.subscribe_all] at hx
      rw [sortBus_mem] at hx
      rcases List.mem_append.mp hx with hx | hx
      · exact h.2.2 x hx
      · rcases List.mem_singleton.mp hx with rfl
        rfl

/-- `busOk` for the fresh bus. -/
theorem emptyBus_busOk : busOk emptyBus := by
  refine ⟨?_, ?_, ?_⟩ <;> simp [emptyBus, descByPriority]

/-- On an all-active list, the dispatch loop invokes every handler in list
order and counts exactly the non-raising ones. -/
theorem dispatchList_all_active (ok : Nat → Bool) (l : List BusEntry)
    (h : ∀ x ∈ l, x.active = true) :
    (dispatchList ok l).1 = l.map BusEntry.handler ∧
    (dispatchList ok l).2 = (l.map BusEntry.handler).countP ok := by
  induction l with
  | nil => exact ⟨rfl, rfl⟩
  | cons e es ih =>
    have he : e.active = true := h e (List.mem_cons_self e es)
    obtain ⟨ih1, ih2⟩ := ih (fun x hx => h x (List.mem_cons_of_mem e hx))
    constructor
    · simp [dispatchList, he, ih1]
    · simp only [dispatchList, he, if_true, ih2, List.map_cons, List.countP_cons]
      by_cases hok : ok e.handler = true
      · simp only [hok, if_true]
        omega
      · simp only [hok, if_false, Bool.false_eq_true]
        omega

/-- C8: during `emit(event)`, the handlers subscribed to the event's type
and the global handlers are each invoked in descending priority order
(larger number first, ties in subscription order — the lists are kept
sorted); a raising handler is logged and does not prevent any later
handler from receiving the event (the invocation order does not depend on
which handlers raise); `emit` returns the count of handlers that completed
without raising. -/
theorem C8_emit_priority_isolation_count (ops : List BusOp) (etype : String)
    (ok ok2 : Nat → Bool) :
    ((applyOps emptyBus ops).emit etype ok).1
        = (lookupSubs (applyOps emptyBus ops).subscribers etype).map
            BusEntry.handler
          ++ (applyOps emptyBus ops).global_subscribers.map BusEntry.handler ∧
    descByPriority (lookupSubs (applyOps emptyBus ops).subscribers etype) ∧
    descByPriority (applyOps emptyBus ops).global_subscribers ∧
    ((applyOps emptyBus ops).emit etype ok).1
        = ((applyOps emptyBus ops).emit etype ok2).1 ∧
    ((applyOps emptyBus ops).emit etype ok).2
        = (((applyOps emptyBus ops).emit etype ok).1).countP ok := by
  have hok := applyOps_busOk ops emptyBus emptyBus_busOk
  have htl : descByPriority
        (lookupSubs (applyOps emptyBus ops).subscribers etype) ∧
      ∀ x ∈ lookupSubs (applyOps emptyBus ops).subscribers etype,
        x.active = true := by
    refine lookupSubs_prop
      (fun l => descByPriority l ∧ ∀ x ∈ l, x.active = true)
      (applyOps emptyBus ops).subscribers etype
      ⟨by simp [descByPriority], by simp⟩ ?_
    intro p hp
    exact hok.1 p hp
  obtain ⟨d1, c1⟩ := dispatchList_all_active ok _ htl.2
  obtain ⟨d2, c2⟩ := dispatchList_all_active ok _ hok.2.2
  obtain ⟨d1b, _⟩ := dispatchList_all_active ok2 _ htl.2
  obtain ⟨d2b, _⟩ := dispatchList_all_active ok2 _ hok.2.2
  have hemit1 : ((applyOps emptyBus ops).emit etype ok).1
      = (lookupSubs (applyOps emptyBus ops).subscribers etype).map
          BusEntry.handler
        ++ (applyOps emptyBus ops).global_subscribers.map BusEntry.handler := by
    simp only [EventBus.emit]
    rw [d1, d2]
  have hemit1b : ((applyOps emptyBus ops).emit etype ok2).1
      = (lookupSubs (applyOps emptyBus ops).subscribers etype).map
          BusEntry.handler
        ++ (applyOps emptyBus ops).global_subscribers.map BusEntry.handler := by
    simp only [EventBus.emit]
    rw [d1b, d2b]
  refine ⟨hemit1, htl.1, hok.2.1, by rw [hemit1, hemit1b], ?_⟩
  have hemit2 : ((applyOps emptyBus ops).emit etype ok).2
      = ((lookupSubs (applyOps emptyBus ops).subscribers etype).map
          BusEntry.handler).countP ok
        + ((applyOps emptyBus ops).global_subscribers.map
            BusEntry.handler).countP ok := by
    simp only [EventBus.emit]
    rw [c1, c2]
  rw [hemit2, hemit1, List.countP_append]

/-! ## Lemmas about the VAD state machine -/

/-- Step equation in state `IDLE`. -/
theorem process_idle_eq (cfg : VADConfig) (m : SileroStateMachine)
    (b : Bool) (ch : List Nat) (hst : m.state = VADState.IDLE) :
    SileroStateMachine.process cfg m b ch =
      if b = true ∧ cfg.required_hits ≤ m.hit_count + 1 then
        ({ state := VADState.ACTIVE, hit_count := 0, miss_count := m.miss_count, bytes := m.bytes ++ ch, pre_buffer := dequeAppend20 m.pre_buffer ch },
         some { audio_data := [], is_speech_start := true, is_speech_end := false, state := VADState.ACTIVE })
      else
        ({ m with pre_buffer := dequeAppend20 m.pre_buffer ch, hit_count := if b then m.hit_count + 1 else 0 }, none) := by
  cases b with
  | false => simp [SileroStateMachine.process, hst]
  | true =>
    by_cases hh : cfg.required_hits ≤ m.hit_count + 1
    · simp [SileroStateMachine.process, hst, hh]
    · simp [SileroStateMachine.process, hst, hh]

/-- Step equation in state `ACTIVE`. -/
theorem process_active_eq (cfg : VADConfig) (m : SileroStateMachine)
    (b : Bool) (ch : List Nat) (hst : m.state = VADState.ACTIVE) :
    SileroStateMachine.process cfg m b ch =
      if b = true then
        ({ m with bytes := m.bytes ++ ch, miss_count := 0 }, none)
      else if cfg.required_misses ≤ m.miss_count + 1 then
        ({ m with bytes := m.bytes ++ ch, miss_count := 0, state := VADState.INACTIVE }, none)
      else
        ({ m with bytes := m.bytes ++ ch, miss_count := m.miss_count + 1 }, none) := by
  cases b with
  | true => simp [SileroStateMachine.process, hst]
  | false =>
    by_cases hm : cfg.required_misses ≤ m.miss_count + 1
    · simp [SileroStateMachine.process, hst, hm]
    · simp [SileroStateMachine.process, hst, hm]

/-- Step equation in state `INACTIVE`. -/
theorem process_inactive_eq (cfg : VADConfig) (m : SileroStateMachine)
    (b : Bool) (ch : List Nat) (hst : m.state = VADState.INACTIVE) :
    SileroStateMachine.process cfg m b ch =
      if b = true then
        (if cfg.required_hits ≤ m.hit_count + 1 then
          ({ m with bytes := m.bytes ++ ch, hit_count := 0, miss_count := 0, state := VADState.ACTIVE }, none)
        else
          ({ m with bytes := m.bytes ++ ch, hit_count := m.hit_count + 1 }, none))
      else if cfg.required_misses ≤ m.miss_count + 1 then
        (if 8000 < (m.pre_buffer.flatten ++ (m.bytes ++ ch)).length then
          ({ state := VADState.IDLE, hit_count := 0, miss_count := 0, bytes := [], pre_buffer := [] },
           some { audio_data := m.pre_buffer.flatten ++ (m.bytes ++ ch), is_speech_start := false, is_speech_end := true, state := VADState.IDLE })
        else
          ({ state := VADState.IDLE, hit_count := 0, miss_count := 0, bytes := [], pre_buffer := [] }, none))
      else
        ({ m with bytes := m.bytes ++ ch, hit_count := 0, miss_count := m.miss_count + 1 }, none) := by
  cases b with
  | true =>
    by_cases hh : cfg.required_hits ≤ m.hit_count + 1
    · simp [SileroStateMachine.process, hst, hh]
    · simp [SileroStateMachine.process, hst, hh]
  | false =>
    by_cases hm : cfg.required_misses ≤ m.miss_count + 1
    · by_cases h8 : 8000 < (m.pre_buffer.flatten ++ (m.bytes ++ ch)).length
      · simp [SileroStateMachine.process, hst, hm, h8]
      · simp [SileroStateMachine.process, hst, hm, h8]
    · simp [SileroStateMachine.process, hst, hm]

/-- `runVAD` on the empty window list. -/
theorem machineAfter_nil (cfg : VADConfig) (m : SileroStateMachine) :
    machineAfter cfg m [] = m := rfl

/-- One step of `runVAD`'s final machine. -/
theorem machineAfter_cons (cfg : VADConfig) (m : SileroStateMachine)
    (b : Bool) (ch : List Nat) (ws : List (Bool × List Nat)) :
    machineAfter cfg m ((b, ch) :: ws)
      = machineAfter cfg (SileroStateMachine.process cfg m b ch).1 ws := rfl

/-- The VAD configuration of the C5 counterexample run. -/
def c5cfg : VADConfig := { required_hits := 1, required_misses := 1 }

/-- A 2000-byte window. -/
def c5chunk : List Nat := List.replicate 2000 0

/-- The machine after one triggering speech window and one non-speech
window under `c5cfg`: state `INACTIVE`, 4000 bytes buffered, one 2000-byte
pre-roll window. -/
def c5machine : SileroStateMachine :=
  { state := VADState.INACTIVE, hit_count := 0, miss_count := 0, bytes := c5chunk ++ c5chunk, pre_buffer := [c5chunk] }

/-- `c5machine` is reached from a fresh machine by the two-window run. -/
theorem c5machine_reachable :
    machineAfter c5cfg initMachine [(true, c5chunk), (false, c5chunk)]
      = c5machine := by
  have h1 : (SileroStateMachine.process c5cfg initMachine true c5chunk).1
      = { state := VADState.ACTIVE, hit_count := 0, miss_count := 0, bytes := c5chunk, pre_buffer := [c5chunk] } := by
    rw [process_idle_eq c5cfg initMachine true c5chunk rfl]
    rw [if_pos ⟨rfl, by norm_num [c5cfg, initMachine]⟩]
    simp [initMachine, dequeAppend20]
  have h2 : (SileroStateMachine.process c5cfg { state := VADState.ACTIVE, hit_count := 0, miss_count := 0, bytes := c5chunk, pre_buffer := [c5chunk] } false c5chunk).1 = c5machine := by
    rw [process_active_eq _ _ _ _ rfl]
    rw [if_neg (by simp)]
    rw [if_pos (by norm_num [c5cfg])]
    simp [c5machine]
  rw [machineAfter_cons, h1, machineAfter_cons, h2, machineAfter_nil]

/-- C5 counterexample: on the next non-speech window the INACTIVE → IDLE
transition fires with accumulated PCM of exactly 8000 bytes — equal to the
claimed minimum, so the claim requires a speech-end — but the code's
strict test `len(audio_data) > 8000` discards the audio silently and emits
nothing. -/
theorem C5_exact_minimum_counterexample :
    machineAfter c5cfg initMachine [(true, c5chunk), (false, c5chunk)]
      = c5machine ∧
    c5machine.state = VADState.INACTIVE ∧
    c5cfg.required_misses ≤ c5machine.miss_count + 1 ∧
    (c5machine.pre_buffer.flatten ++ (c5machine.bytes ++ c5chunk)).length
      = 8000 ∧
    (SileroStateMachine.process c5cfg c5machine false c5chunk).1.state
      = VADState.IDLE ∧
    (SileroStateMachine.process c5cfg c5machine false c5chunk).2 = none := by
  have hc : c5chunk.length = 2000 := by
    rw [c5chunk, List.length_replicate]
  have hlen : (c5machine.pre_buffer.flatten ++ (c5machine.bytes ++ c5chunk)).length
      = 8000 := by
    simp only [c5machine, List.flatten_cons, List.flatten_nil, List.append_nil,
      List.length_append, hc]
  have hstep : SileroStateMachine.process c5cfg c5machine false c5chunk
      = ({ state := VADState.IDLE, hit_count := 0, miss_count := 0, bytes := [], pre_buffer := [] }, none) := by
    rw [process_inactive_eq _ _ _ _ rfl]
    rw [if_neg (by simp)]
    rw [if_pos (show c5cfg.required_misses ≤ c5machine.miss_count + 1 by
      norm_num [c5cfg, c5machine])]
    rw [if_neg (show ¬ 8000 <
        (c5machine.pre_buffer.flatten ++ (c5machine.bytes ++ c5chunk)).length by
      rw [hlen]; omega)]
  exact ⟨c5machine_reachable, rfl, by norm_num [c5cfg, c5machine], hlen,
    by rw [hstep], by rw [hstep]⟩

/-- C5 amended: on the INACTIVE → IDLE transition (`required_misses`
reached by a non-speech window) the machine emits a speech-end carrying
the accumulated PCM (pre-roll prefix plus utterance buffer including the
final window) if and only if the accumulated length is strictly greater
than 8000 bytes; at 8000 bytes or below the audio is discarded silently
(no emission) while the state still returns to IDLE. -/
theorem C5_speech_end_strict_minimum_amended (cfg : VADConfig)
    (m : SileroStateMachine) (ch : List Nat)
    (hst : m.state = VADState.INACTIVE)
    (hmiss : cfg.required_misses ≤ m.miss_count + 1) :
    (SileroStateMachine.process cfg m false ch).1.state = VADState.IDLE ∧
    (8000 < (m.pre_buffer.flatten ++ (m.bytes ++ ch)).length →
      (SileroStateMachine.process cfg m false ch).2
        = some { audio_data := m.pre_buffer.flatten ++ (m.bytes ++ ch), is_speech_start := false, is_speech_end := true, state := VADState.IDLE }) ∧
    ((m.pre_buffer.flatten ++ (m.bytes ++ ch)).length ≤ 8000 →
      (SileroStateMachine.process cfg m false ch).2 = none) := by
  rw [process_inactive_eq cfg m false ch hst]
  rw [if_neg (by simp)]
  rw [if_pos hmiss]
  by_cases h8 : 8000 < (m.pre_buffer.flatten ++ (m.bytes ++ ch)).length
  · rw [if_pos h8]
    exact ⟨rfl, fun _ => rfl, fun hle => absurd h8 (by omega)⟩
  · rw [if_neg h8]
    exact ⟨rfl, fun hgt => absurd hgt h8, fun _ => rfl⟩

/-- Witness for the amended C5 on a concrete `INACTIVE` machine holding
9000 buffered bytes. -/
theorem C5_speech_end_strict_minimum_amended_witness :
    (({ state := VADState.INACTIVE, hit_count := 0, miss_count := 0, bytes := List.replicate 9000 0, pre_buffer := [] } : SileroStateMachine).state = VADState.INACTIVE ∧
     c5cfg.required_misses ≤ ({ state := VADState.INACTIVE, hit_count := 0, miss_count := 0, bytes := List.replicate 9000 0, pre_buffer := [] } : SileroStateMachine).miss_count + 1) ∧
    ((SileroStateMachine.process c5cfg { state := VADState.INACTIVE, hit_count := 0, miss_count := 0, bytes := List.replicate 9000 0, pre_buffer := [] } false []).1.state = VADState.IDLE ∧
    (8000 < (([] : List (List Nat)).flatten ++ (List.replicate 9000 (0 : Nat) ++ ([] : List Nat))).length →
      (SileroStateMachine.process c5cfg { state := VADState.INACTIVE, hit_count := 0, miss_count := 0, bytes := List.replicate 9000 0, pre_buffer := [] } false []).2
        = some { audio_data := ([] : List (List Nat)).flatten ++ (List.replicate 9000 (0 : Nat) ++ ([] : List Nat)), is_speech_start := false, is_speech_end := true, state := VADState.IDLE }) ∧
    ((([] : List (List Nat)).flatten ++ (List.replicate 9000 (0 : Nat) ++ ([] : List Nat))).length ≤ 8000 →
      (SileroStateMachine.process c5cfg { state := VADState.INACTIVE, hit_count := 0, miss_count := 0, bytes := List.replicate 9000 0, pre_buffer := [] } false []).2 = none)) :=
  ⟨⟨rfl, by norm_num [c5cfg]⟩,
   C5_speech_end_strict_minimum_amended c5cfg
     { state := VADState.INACTIVE, hit_count := 0, miss_count := 0, bytes := List.replicate 9000 0, pre_buffer := [] }
     [] rfl (by norm_num [c5cfg])⟩

/-- `runVAD` on the empty window list. -/
theorem runVAD_nil (cfg : VADConfig) (m : SileroStateMachine) :
    runVAD cfg m [] = (m, []) := rfl

/-- One step of `runVAD`. -/
theorem runVAD_cons (cfg : VADConfig) (m : SileroStateMachine) (b : Bool)
    (ch : List Nat) (ws : List (Bool × List Nat)) :
    runVAD cfg m ((b, ch) :: ws)
      = ((runVAD cfg (SileroStateMachine.process cfg m b ch).1 ws).1,
         (SileroStateMachine.process cfg m b ch).2
           :: (runVAD cfg (SileroStateMachine.process cfg m b ch).1 ws).2) := rfl

/-- The VAD configuration of the C6 counterexample run. -/
def c6cfg : VADConfig := { required_hits := 1, required_misses := 1 }

/-- A tiny (2-byte) window. -/
def c6small : List Nat := [0, 0]

/-- A 2001-byte window. -/
def c6big : List Nat := List.replicate 2001 0

/-- The C6 run: a short utterance that is discarded silently (too little
audio), followed by a long utterance that produces a speech-end. -/
def c6trace : List (Bool × List Nat) :=
  [(true, c6small), (false, c6small), (false, c6small),
   (true, c6big), (false, c6big), (false, c6big)]

/-- The speech-start result emitted on an IDLE → ACTIVE transition. -/
def startResult : VADResult :=
  { audio_data := [], is_speech_start := true, is_speech_end := false, state := VADState.ACTIVE }

/-- The speech-end result of the last step of the C6 run. -/
def c6endResult : VADResult :=
  { audio_data := c6big ++ ((c6big ++ c6big) ++ c6big), is_speech_start := false, is_speech_end := true, state := VADState.IDLE }

/-- Machine after step 0 of the C6 run. -/
def c6m1 : SileroStateMachine :=
  { state := VADState.ACTIVE, hit_count := 0, miss_count := 0, bytes := c6small, pre_buffer := [c6small] }

/-- Machine after step 1 of the C6 run. -/
def c6m2 : SileroStateMachine :=
  { state := VADState.INACTIVE, hit_count := 0, miss_count := 0, bytes := c6small ++ c6small, pre_buffer := [c6small] }

/-- Machine after step 3 of the C6 run. -/
def c6m4 : SileroStateMachine :=
  { state := VADState.ACTIVE, hit_count := 0, miss_count := 0, bytes := c6big, pre_buffer := [c6big] }

/-- Machine after step 4 of the C6 run. -/
def c6m5 : SileroStateMachine :=
  { state := VADState.INACTIVE, hit_count := 0, miss_count := 0, bytes := c6big ++ c6big, pre_buffer := [c6big] }

/-- Step 0 of the C6 run: speech-start of the short utterance. -/
theorem c6step0 : SileroStateMachine.process c6cfg initMachine true c6small
    = (c6m1, some startResult) := by
  rw [process_idle_eq _ _ _ _ rfl]
  rw [if_pos ⟨rfl, by norm_num [c6cfg, initMachine]⟩]
  simp [initMachine, dequeAppend20, startResult, c6m1]

/-- Step 1 of the C6 run: ACTIVE → INACTIVE. -/
theorem c6step1 : SileroStateMachine.process c6cfg c6m1 false c6small
    = (c6m2, none) := by
  rw [process_active_eq _ _ _ _ rfl]
  rw [if_neg (by simp)]
  rw [if_pos (by norm_num [c6cfg, c6m1])]
  simp [c6m1, c6m2]

/-- Step 2 of the C6 run: INACTIVE → IDLE with only 8 accumulated bytes —
silent discard, no speech-end. -/
theorem c6step2 : SileroStateMachine.process c6cfg c6m2 false c6small
    = (initMachine, none) := by
  rw [process_inactive_eq _ _ _ _ rfl]
  rw [if_neg (by simp)]
  rw [if_pos (by norm_num [c6cfg, c6m2])]
  rw [if_neg (show ¬ 8000 <
      (c6m2.pre_buffer.flatten ++ (c6m2.bytes ++ c6small)).length by
    simp [c6m2, c6small])]
  simp [initMachine]

/-- Step 3 of the C6 run: speech-start of the long utterance. -/
theorem c6step3 : SileroStateMachine.process c6cfg initMachine true c6big
    = (c6m4, some startResult) := by
  rw [process_idle_eq _ _ _ _ rfl]
  rw [if_pos ⟨rfl, by norm_num [c6cfg, initMachine]⟩]
  simp [initMachine, dequeAppend20, startResult, c6m4]

/-- Step 4 of the C6 run: ACTIVE → INACTIVE. -/
theorem c6step4 : SileroStateMachine.process c6cfg c6m4 false c6big
    = (c6m5, none) := by
  rw [process_active_eq _ _ _ _ rfl]
  rw [if_neg (by simp)]
  rw [if_pos (by norm_num [c6cfg, c6m4])]
  simp [c6m4, c6m5]

/-- Step 5 of the C6 run: INACTIVE → IDLE with 8004 accumulated bytes —
speech-end emitted. -/
theorem c6step5 : SileroStateMachine.process c6cfg c6m5 false c6big
    = (initMachine, some c6endResult) := by
  have hb : c6big.length = 2001 := by rw [c6big, List.length_replicate]
  rw [process_inactive_eq _ _ _ _ rfl]
  rw [if_neg (by simp)]
  rw [if_pos (by norm_num [c6cfg, c6m5])]
  rw [if_pos (show 8000 <
      (c6m5.pre_buffer.flatten ++ (c6m5.bytes ++ c6big)).length by
    simp only [c6m5, List.flatten_cons, List.flatten_nil, List.append_nil,
      List.length_append, hb]
    omega)]
  simp [initMachine, c6endResult, c6m5]

/-- The output sequence of the C6 run. -/
theorem c6outputs : (runVAD c6cfg initMachine c6trace).2
    = [some startResult, none, none, some startResult, none, some c6endResult] := by
  simp only [c6trace, runVAD_cons, runVAD_nil, c6step0, c6step1, c6step2,
    c6step3, c6step4, c6step5]

/-- The machine is back in IDLE after the three windows of the short
(discarded) utterance. -/
theorem c6state3 : (machineAfter c6cfg initMachine (c6trace.take 3)).state
    = VADState.IDLE := by
  simp only [c6trace, List.take, machineAfter_cons, machineAfter_nil,
    c6step0, c6step1, c6step2]
  rfl

/-- C6 counterexample: in the C6 run a speech-start is emitted at step 0
and the following speech-end at step 5 (steps 1–4 emit no speech-end), yet
after step 2 — strictly between that start/end pair — the internal state
is IDLE: a short utterance is discarded silently via INACTIVE → IDLE
without any speech-end, breaking the claimed bracket invariant. -/
theorem C6_bracket_counterexample :
    (runVAD c6cfg initMachine c6trace).2
      = [some startResult, none, none, some startResult, none, some c6endResult] ∧
    startResult.is_speech_start = true ∧
    c6endResult.is_speech_end = true ∧
    (∀ o ∈ [(none : Option VADResult), none, none, some startResult, none],
      ∀ r, o = some r → r.is_speech_end = false) ∧
    (machineAfter c6cfg initMachine (c6trace.take 3)).state = VADState.IDLE := by
  refine ⟨c6outputs, rfl, rfl, ?_, c6state3⟩
  intro o ho r hr
  simp only [List.mem_cons, List.not_mem_nil, or_false] at ho
  rcases ho with rfl | rfl | rfl | rfl | rfl
  · cases hr
  · cases hr
  · cases hr
  · cases hr; rfl
  · cases hr

/-- C6 amended: (i) from IDLE the machine transitions to ACTIVE and emits
speech-start exactly when the window is speech and the hit counter reaches
`required_hits` (the counter counts consecutive speech windows: a
non-speech window in IDLE resets it to 0, a non-triggering speech window
increments it, and the state stays IDLE with no emission); (ii) between a
speech-start and the machine's next return to IDLE the state is ACTIVE or
INACTIVE: the machine leaves IDLE only via the speech-start transition and
returns to IDLE only via the INACTIVE miss-threshold step, which emits a
speech-end exactly when the accumulated audio exceeds 8000 bytes and is
otherwise silent — so a discarded short utterance ends its bracket with no
speech-end, and only outside these brackets is the state IDLE. -/
theorem C6_hysteresis_transitions_amended (cfg : VADConfig)
    (m : SileroStateMachine) (b : Bool) (ch : List Nat) :
    ((∃ r, (SileroStateMachine.process cfg m b ch).2 = some r ∧
        r.is_speech_start = true) ↔
      (m.state = VADState.IDLE ∧ b = true ∧
        cfg.required_hits ≤ m.hit_count + 1)) ∧
    ((m.state = VADState.IDLE ∧ b = true ∧
        cfg.required_hits ≤ m.hit_count + 1) →
      (SileroStateMachine.process cfg m b ch).1.state = VADState.ACTIVE ∧
      (SileroStateMachine.process cfg m b ch).1.hit_count = 0) ∧
    (m.state = VADState.IDLE →
      ¬(b = true ∧ cfg.required_hits ≤ m.hit_count + 1) →
      (SileroStateMachine.process cfg m b ch).1.state = VADState.IDLE ∧
      (SileroStateMachine.process cfg m b ch).1.hit_count
        = (if b then m.hit_count + 1 else 0) ∧
      (SileroStateMachine.process cfg m b ch).2 = none) ∧
    (m.state ≠ VADState.IDLE →
      (SileroStateMachine.process cfg m b ch).1.state = VADState.IDLE →
      (m.state = VADState.INACTIVE ∧ b = false ∧
        cfg.required_misses ≤ m.miss_count + 1 ∧
        ((∃ r, (SileroStateMachine.process cfg m b ch).2 = some r ∧
            r.is_speech_end = true) ↔
          8000 < (m.pre_buffer.flatten ++ (m.bytes ++ ch)).length))) ∧
    (m.state ≠ VADState.IDLE →
      ∀ r, (SileroStateMachine.process cfg m b ch).2 = some r →
        r.is_speech_start = false) ∧
    (m.state = VADState.IDLE →
      (SileroStateMachine.process cfg m b ch).1.state ≠ VADState.IDLE →
      ∃ r, (SileroStateMachine.process cfg m b ch).2 = some r ∧
        r.is_speech_start = true) := by
  rcases hst : m.state with _ | _ | _
  · -- IDLE
    rw [process_idle_eq cfg m b ch hst]
    by_cases hcond : b = true ∧ cfg.required_hits ≤ m.hit_count + 1
    · rw [if_pos hcond]
      simp [hst, hcond.1, hcond.2]
    · rw [if_neg hcond]
      push_neg at hcond
      by_cases hb : b = true
      · simp [hst, hb, hcond hb]
      · have hbf : b = false := by simp only [Bool.not_eq_true] at hb; exact hb
        simp [hst, hbf]
  · -- ACTIVE
    rw [process_active_eq cfg m b ch hst]
    by_cases hb : b = true
    · rw [if_pos hb]
      simp [hst, hb]
    · rw [if_neg hb]
      by_cases hmiss : cfg.required_misses ≤ m.miss_count + 1
      · rw [if_pos hmiss]
        simp [hst]
      · rw [if_neg hmiss]
        simp [hst]
  · -- INACTIVE
    rw [process_inactive_eq cfg m b ch hst]
    by_cases hb : b = true
    · rw [if_pos hb]
      by_cases hh : cfg.required_hits ≤ m.hit_count + 1
      · rw [if_pos hh]
        simp [hst]
      · rw [if_neg hh]
        simp [hst]
    · rw [if_neg hb]
      have hbf : b = false := by simp only [Bool.not_eq_true] at hb; exact hb
      by_cases hmiss : cfg.required_misses ≤ m.miss_count + 1
      · rw [if_pos hmiss]
        by_cases h8 : 8000 < (m.pre_buffer.flatten ++ (m.bytes ++ ch)).length
        · rw [if_pos h8]
          simp [hst, hbf, hmiss]
          simpa using h8
        · rw [if_neg h8]
          simp [hst, hbf, hmiss]
          simpa using h8
      · rw [if_neg hmiss]
        simp [hst, hbf]

/-- Witness for the amended C6 at a concrete triggering step. -/
theorem C6_hysteresis_transitions_amended_witness :
    ((∃ r, (SileroStateMachine.process c6cfg initMachine true c6small).2 = some r ∧
        r.is_speech_start = true) ↔
      (initMachine.state = VADState.IDLE ∧ true = true ∧
        c6cfg.required_hits ≤ initMachine.hit_count + 1)) ∧
    ((initMachine.state = VADState.IDLE ∧ true = true ∧
        c6cfg.required_hits ≤ initMachine.hit_count + 1) →
      (SileroStateMachine.process c6cfg initMachine true c6small).1.state = VADState.ACTIVE ∧
      (SileroStateMachine.process c6cfg initMachine true c6small).1.hit_count = 0) ∧
    (initMachine.state = VADState.IDLE →
      ¬(true = true ∧ c6cfg.required_hits ≤ initMachine.hit_count + 1) →
      (SileroStateMachine.process c6cfg initMachine true c6small).1.state = VADState.IDLE ∧
      (SileroStateMachine.process c6cfg initMachine true c6small).1.hit_count
        = (if true then initMachine.hit_count + 1 else 0) ∧
      (SileroStateMachine.process c6cfg initMachine true c6small).2 = none) ∧
    (initMachine.state ≠ VADState.IDLE →
      (SileroStateMachine.process c6cfg initMachine true c6small).1.state = VADState.IDLE →
      (initMachine.state = VADState.INACTIVE ∧ true = false ∧
        c6cfg.required_misses ≤ initMachine.miss_count + 1 ∧
        ((∃ r, (SileroStateMachine.process c6cfg initMachine true c6small).2 = some r ∧
            r.is_speech_end = true) ↔
          8000 < (initMachine.pre_buffer.flatten ++ (initMachine.bytes ++ c6small)).length))) ∧
    (initMachine.state ≠ VADState.IDLE →
      ∀ r, (SileroStateMachine.process c6cfg initMachine true c6small).2 = some r →
        r.is_speech_start = false) ∧
    (initMachine.state = VADState.IDLE →
      (SileroStateMachine.process c6cfg initMachine true c6small).1.state ≠ VADState.IDLE →
      ∃ r, (SileroStateMachine.process c6cfg initMachine true c6small).2 = some r ∧
        r.is_speech_start = true) :=
  C6_hysteresis_transitions_amended c6cfg initMachine true c6small

/-- A step that neither starts from nor returns to IDLE leaves the
pre-roll untouched and appends the window to the utterance buffer. -/
theorem process_nonidle_keep (cfg : VADConfig) (m : SileroStateMachine)
    (b : Bool) (ch : List Nat) (hne : m.state ≠ VADState.IDLE)
    (hne2 : (SileroStateMachine.process cfg m b ch).1.state ≠ VADState.IDLE) :
    (SileroStateMachine.process cfg m b ch).1.pre_buffer = m.pre_buffer ∧
    (SileroStateMachine.process cfg m b ch).1.bytes = m.bytes ++ ch := by
  rcases hst : m.state with _ | _ | _
  · exact absurd hst hne
  · rw [process_active_eq _ _ _ _ hst]
    by_cases hb : b = true
    · rw [if_pos hb]; exact ⟨rfl, rfl⟩
    · rw [if_neg hb]
      by_cases hmiss : cfg.required_misses ≤ m.miss_count + 1
      · rw [if_pos hmiss]; exact ⟨rfl, rfl⟩
      · rw [if_neg hmiss]; exact ⟨rfl, rfl⟩
  · rw [process_inactive_eq _ _ _ _ hst] at hne2 ⊢
    by_cases hb : b = true
    · rw [if_pos hb] at hne2 ⊢
      by_cases hh : cfg.required_hits ≤ m.hit_count + 1
      · rw [if_pos hh]; exact ⟨rfl, rfl⟩
      · rw [if_neg hh]; exact ⟨rfl, rfl⟩
    · rw [if_neg hb] at hne2 ⊢
      by_cases hmiss : cfg.required_misses ≤ m.miss_count + 1
      · rw [if_pos hmiss] at hne2 ⊢
        by_cases h8 : 8000 < (m.pre_buffer.flatten ++ (m.bytes ++ ch)).length
        · rw [if_pos h8] at hne2; exact absurd rfl hne2
        · rw [if_neg h8] at hne2; exact absurd rfl hne2
      · rw [if_neg hmiss]; exact ⟨rfl, rfl⟩

/-- A speech-end emitted from a non-IDLE state carries exactly the
pre-roll bytes followed by the utterance buffer (including the final
window). -/
theorem process_end_audio (cfg : VADConfig) (m : SileroStateMachine)
    (b : Bool) (ch : List Nat) (r : VADResult)
    (hne : m.state ≠ VADState.IDLE)
    (hr : (SileroStateMachine.process cfg m b ch).2 = some r) :
    r.audio_data = m.pre_buffer.flatten ++ (m.bytes ++ ch) := by
  rcases hst : m.state with _ | _ | _
  · exact absurd hst hne
  · rw [process_active_eq _ _ _ _ hst] at hr
    by_cases hb : b = true
    · rw [if_pos hb] at hr; cases hr
    · rw [if_neg hb] at hr
      by_cases hmiss : cfg.required_misses ≤ m.miss_count + 1
      · rw [if_pos hmiss] at hr; cases hr
      · rw [if_neg hmiss] at hr; cases hr
  · rw [process_inactive_eq _ _ _ _ hst] at hr
    by_cases hb : b = true
    · rw [if_pos hb] at hr
      by_cases hh : cfg.required_hits ≤ m.hit_count + 1
      · rw [if_pos hh] at hr; cases hr
      · rw [if_neg hh] at hr; cases hr
    · rw [if_neg hb] at hr
      by_cases hmiss : cfg.required_misses ≤ m.miss_count + 1
      · rw [if_pos hmiss] at hr
        by_cases h8 : 8000 < (m.pre_buffer.flatten ++ (m.bytes ++ ch)).length
        · rw [if_pos h8] at hr
          cases hr
          rfl
        · rw [if_neg h8] at hr; cases hr
      · rw [if_neg hmiss] at hr; cases hr

/-- Run invariant for C10: if the pre-roll ends with window `c` and the
utterance buffer starts with `c`, then a speech-end reached without an
intermediate return to IDLE has a payload containing `c ++ c`. -/
theorem runVAD_end_dup (cfg : VADConfig) (c : List Nat) :
    ∀ (L : List (Bool × List Nat)) (mt : SileroStateMachine),
      (∃ P, mt.pre_buffer.flatten = P ++ c) →
      (∃ B, mt.bytes = c ++ B) →
      mt.state ≠ VADState.IDLE →
      ∀ (j : Nat) (r : VADResult),
      (runVAD cfg mt L).2.get? j = some (some r) →
      (∀ k, k < j →
        (machineAfter cfg mt (L.take (k + 1))).state ≠ VADState.IDLE) →
      ∃ P B, r.audio_data = P ++ (c ++ c) ++ B := by
  intro L
  induction L with
  | nil =>
    intro mt _ _ _ j r hj _
    rw [runVAD_nil] at hj
    simp at hj
  | cons w rest ih =>
    intro mt hpre hby hne j r hj hmid
    obtain ⟨b, ch⟩ := w
    rw [runVAD_cons] at hj
    cases j with
    | zero =>
      simp only [List.get?_cons_zero, Option.some.injEq] at hj
      obtain ⟨P, hP⟩ := hpre
      obtain ⟨B, hB⟩ := hby
      have haudio := process_end_audio cfg mt b ch r hne hj
      refine ⟨P, B ++ ch, ?_⟩
      rw [haudio, hP, hB]
      simp [List.append_assoc]
    | succ j2 =>
      simp only [List.get?_cons_succ] at hj
      have hne2 : (SileroStateMachine.process cfg mt b ch).1.state
          ≠ VADState.IDLE := by
        have := hmid 0 (by omega)
        simpa [List.take_succ_cons, machineAfter_cons, machineAfter_nil]
          using this
      obtain ⟨hpre2, hby2⟩ := process_nonidle_keep cfg mt b ch hne hne2
      apply ih (SileroStateMachine.process cfg mt b ch).1 ?_ ?_ hne2 j2 r hj ?_
      · obtain ⟨P, hP⟩ := hpre
        exact ⟨P, by rw [hpre2, hP]⟩
      · obtain ⟨B, hB⟩ := hby
        refine ⟨B ++ ch, ?_⟩
        rw [hby2, hB]
        simp
      · intro k hk
        have := hmid (k + 1) (by omega)
        simpa [List.take_succ_cons, machineAfter_cons] using this

/-- C10: the window that triggers the IDLE → ACTIVE transition is both
retained (last) in the pre-roll ring and appended (first) to the utterance
buffer, so the eventual speech-end payload — pre-roll bytes joined in
front of the buffer bytes — contains that window's 1024 bytes twice, as
two adjacent copies, provided the machine does not return to IDLE before
that speech-end. -/
theorem C10_trigger_window_duplicated (cfg : VADConfig)
    (m : SileroStateMachine) (c : List Nat) (L : List (Bool × List Nat))
    (j : Nat) (r : VADResult)
    (hst : m.state = VADState.IDLE) (hbytes : m.bytes = [])
    (_hlen : c.length = 1024)
    (htrig : cfg.required_hits ≤ m.hit_count + 1)
    (hj : (runVAD cfg (SileroStateMachine.process cfg m true c).1 L).2.get? j
        = some (some r))
    (hmid : ∀ k, k < j →
      (machineAfter cfg (SileroStateMachine.process cfg m true c).1
        (L.take (k + 1))).state ≠ VADState.IDLE) :
    (∃ rs, (SileroStateMachine.process cfg m true c).2 = some rs ∧
      rs.is_speech_start = true) ∧
    (∃ P0, (SileroStateMachine.process cfg m true c).1.pre_buffer.flatten
      = P0 ++ c) ∧
    (SileroStateMachine.process cfg m true c).1.bytes = c ∧
    (∃ P B, r.audio_data = P ++ (c ++ c) ++ B) := by
  have hstep := process_idle_eq cfg m true c hst
  rw [if_pos ⟨rfl, htrig⟩] at hstep
  have hpre : ∃ P0, (SileroStateMachine.process cfg m true c).1.pre_buffer.flatten
      = P0 ++ c := by
    rw [hstep]
    refine ⟨(if m.pre_buffer.length < 20 then m.pre_buffer
      else m.pre_buffer.drop 1).flatten, ?_⟩
    simp [dequeAppend20]
  have hby : (SileroStateMachine.process cfg m true c).1.bytes = c := by
    rw [hstep]
    simp [hbytes]
  have hne : (SileroStateMachine.process cfg m true c).1.state
      ≠ VADState.IDLE := by
    rw [hstep]
    intro h
    cases h
  refine ⟨⟨_, by rw [hstep], rfl⟩, hpre, hby, ?_⟩
  exact runVAD_end_dup cfg c L (SileroStateMachine.process cfg m true c).1
    hpre ⟨[], by rw [hby]; simp⟩ hne j r hj hmid

/-- Configuration for the C10 witness run. -/
def c10cfg : VADConfig := { required_hits := 1, required_misses := 1 }

/-- The 1024-byte trigger window of the C10 witness. -/
def c10c : List Nat := List.replicate 1024 7

/-- A 3500-byte non-speech window of the C10 witness. -/
def c10b : List Nat := List.replicate 3500 9

/-- The machine after the trigger step of the C10 witness. -/
def c10m1 : SileroStateMachine :=
  { state := VADState.ACTIVE, hit_count := 0, miss_count := 0, bytes := c10c, pre_buffer := [c10c] }

/-- The machine after the second step of the C10 witness. -/
def c10m2 : SileroStateMachine :=
  { state := VADState.INACTIVE, hit_count := 0, miss_count := 0, bytes := c10c ++ c10b, pre_buffer := [c10c] }

/-- The speech-end result of the C10 witness run (9048 bytes; note the two
adjacent copies of the trigger window at the front). -/
def c10end : VADResult :=
  { audio_data := c10c ++ ((c10c ++ c10b) ++ c10b), is_speech_start := false, is_speech_end := true, state := VADState.IDLE }

/-- Trigger step of the C10 witness. -/
theorem c10step0 : SileroStateMachine.process c10cfg initMachine true c10c
    = (c10m1, some startResult) := by
  rw [process_idle_eq _ _ _ _ rfl]
  rw [if_pos ⟨rfl, by norm_num [c10cfg, initMachine]⟩]
  simp [initMachine, dequeAppend20, startResult, c10m1]

/-- Second step of the C10 witness: ACTIVE → INACTIVE. -/
theorem c10step1 : SileroStateMachine.process c10cfg c10m1 false c10b
    = (c10m2, none) := by
  rw [process_active_eq _ _ _ _ rfl]
  rw [if_neg (by simp)]
  rw [if_pos (by norm_num [c10cfg, c10m1])]
  simp [c10m1, c10m2]

/-- Third step of the C10 witness: INACTIVE → IDLE with 9048 bytes —
speech-end. -/
theorem c10step2 : SileroStateMachine.process c10cfg c10m2 false c10b
    = (initMachine, some c10end) := by
  have hc : c10c.length = 1024 := by rw [c10c, List.length_replicate]
  have hb : c10b.length = 3500 := by rw [c10b, List.length_replicate]
  rw [process_inactive_eq _ _ _ _ rfl]
  rw [if_neg (by simp)]
  rw [if_pos (by norm_num [c10cfg, c10m2])]
  rw [if_pos (show 8000 <
      (c10m2.pre_buffer.flatten ++ (c10m2.bytes ++ c10b)).length by
    simp only [c10m2, List.flatten_cons, List.flatten_nil, List.append_nil,
      List.length_append, hc, hb]
    omega)]
  simp [initMachine, c10end, c10m2]

/-- Witness for C10: the concrete three-window run (trigger, two misses)
satisfies every hypothesis, and the 9048-byte speech-end payload contains
the 1024-byte trigger window twice, adjacently. -/
theorem C10_trigger_window_duplicated_witness :
    (initMachine.state = VADState.IDLE ∧ initMachine.bytes = [] ∧
     c10c.length = 1024 ∧
     c10cfg.required_hits ≤ initMachine.hit_count + 1 ∧
     (runVAD c10cfg (SileroStateMachine.process c10cfg initMachine true c10c).1
        [(false, c10b), (false, c10b)]).2.get? 1 = some (some c10end) ∧
     (∀ k, k < 1 →
       (machineAfter c10cfg
         (SileroStateMachine.process c10cfg initMachine true c10c).1
         ([(false, c10b), (false, c10b)].take (k + 1))).state
           ≠ VADState.IDLE)) ∧
    ((∃ rs, (SileroStateMachine.process c10cfg initMachine true c10c).2
        = some rs ∧ rs.is_speech_start = true) ∧
     (∃ P0, (SileroStateMachine.process c10cfg initMachine true c10c).1.pre_buffer.flatten
        = P0 ++ c10c) ∧
     (SileroStateMachine.process c10cfg initMachine true c10c).1.bytes = c10c ∧
     (∃ P B, c10end.audio_data = P ++ (c10c ++ c10c) ++ B)) := by
  have hrun : (runVAD c10cfg
      (SileroStateMachine.process c10cfg initMachine true c10c).1
      [(false, c10b), (false, c10b)]).2 = [none, some c10end] := by
    simp only [c10step0, runVAD_cons, runVAD_nil, c10step1, c10step2]
  have hmid : ∀ k, k < 1 →
      (machineAfter c10cfg
        (SileroStateMachine.process c10cfg initMachine true c10c).1
        ([(false, c10b), (false, c10b)].take (k + 1))).state
          ≠ VADState.IDLE := by
    intro k hk
    have hk0 : k = 0 := by omega
    subst hk0
    simp only [List.take_succ_cons, List.take_zero, c10step0,
      machineAfter_cons, machineAfter_nil, c10step1]
    intro h
    cases h
  have hlen : c10c.length = 1024 := by rw [c10c, List.length_replicate]
  have hget : (runVAD c10cfg
      (SileroStateMachine.process c10cfg initMachine true c10c).1
      [(false, c10b), (false, c10b)]).2.get? 1 = some (some c10end) := by
    rw [hrun]
    rfl
  exact ⟨⟨rfl, rfl, hlen, by norm_num [c10cfg, initMachine], hget, hmid⟩,
    C10_trigger_window_duplicated c10cfg initMachine c10c
      [(false, c10b), (false, c10b)] 1 c10end rfl rfl hlen
      (by norm_num [c10cfg, initMachine]) hget hmid⟩

/-! ## Lemmas about the position-based timeline strategy -/

/-- A contiguous chain's durations telescope. -/
theorem chainFrom_sum (l : List TimelineSegment) :
    ∀ (a b : ℚ), chainFrom a l b → sumDur l = b - a := by
  induction l with
  | nil =>
    intro a b h
    rw [show a = b from h]
    simp [sumDur]
  | cons s rest ih =>
    intro a b h
    obtain ⟨hs, _, hrest⟩ := h
    have := ih s.end_time b hrest
    simp only [sumDur, List.map_cons, List.sum_cons] at this ⊢
    rw [this, TimelineSegment.duration, hs]
    ring

/-- All segments of a contiguous chain are non-degenerate. -/
theorem chainFrom_pos (l : List TimelineSegment) :
    ∀ (a b : ℚ), chainFrom a l b → ∀ s ∈ l, 0 < s.duration := by
  induction l with
  | nil => intro a b _ s hs; cases hs
  | cons t rest ih =>
    intro a b h s hs
    obtain ⟨ht, hlt, hrest⟩ := h
    rcases List.mem_cons.mp hs with rfl | hs2
    · rw [TimelineSegment.duration, ht]
      linarith
    · exact ih t.end_time b hrest s hs2

/-- A contiguous chain is sorted by start time. -/
theorem chainFrom_sorted (l : List TimelineSegment) :
    ∀ (a b : ℚ), chainFrom a l b →
      List.Chain' (fun s t => s.start_time ≤ t.start_time) l := by
  induction l with
  | nil => intro a b _; simp
  | cons s rest ih =>
    intro a b h
    obtain ⟨hs, hlt, hrest⟩ := h
    cases rest with
    | nil => simp
    | cons t ts =>
      have ht := hrest.1
      refine List.chain'_cons.mpr ⟨?_, ih s.end_time b hrest⟩
      rw [ht, hs]
      exact le_of_lt hlt

/-- A contiguous chain is non-overlapping. -/
theorem chainFrom_nonoverlap (l : List TimelineSegment) :
    ∀ (a b : ℚ), chainFrom a l b →
      List.Chain' (fun s t => s.end_time ≤ t.start_time) l := by
  induction l with
  | nil => intro a b _; simp
  | cons s rest ih =>
    intro a b h
    obtain ⟨_, _, hrest⟩ := h
    cases rest with
    | nil => simp
    | cons t ts =>
      have ht := hrest.1
      exact List.chain'_cons.mpr ⟨le_of_eq ht.symm, ih s.end_time b hrest⟩

/-- The stable sort is the identity on a list sorted by start time. -/
theorem sortByStart_sorted_id (l : List TimelineSegment)
    (h : List.Chain' (fun s t => s.start_time ≤ t.start_time) l) :
    sortByStart l = l := by
  induction l with
  | nil => rfl
  | cons x xs ih =>
    simp only [sortByStart]
    rw [ih h.tail]
    cases xs with
    | nil => rfl
    | cons y ys =>
      simp only [insertByStart]
      rw [if_pos (List.chain'_cons.mp h).1]

/-- The even split is a contiguous chain of equal slices. -/
theorem evenSegsAux_chain (d : ℚ) (hd : 0 < d) (es : List String) :
    ∀ i : Nat,
      chainFrom (i * d) (evenSegsAux d es i) ((i + es.length : Nat) * d) ∧
      ∀ s ∈ evenSegsAux d es i, s.duration = d := by
  induction es with
  | nil =>
    intro i
    refine ⟨?_, by simp [evenSegsAux]⟩
    show ((i : ℚ) * d) = (((i + 0 : Nat) : ℚ) * d)
    norm_num
  | cons e es ih =>
    intro i
    simp only [evenSegsAux]
    constructor
    · refine ⟨rfl, ?_, ?_⟩
      · push_cast
        nlinarith [hd]
      · have h := (ih (i + 1)).1
        rw [show (i + (e :: es).length : Nat) = ((i + 1) + es.length : Nat) by
          simp [List.length_cons]; omega]
        exact h
    · intro s hs
      rcases List.mem_cons.mp hs with rfl | hs2
      · show ((i + 1 : Nat) : ℚ) * d - (i : ℚ) * d = d
        push_cast
        ring
      · exact (ih (i + 1)).2 s hs2

/-- The merging loop preserves the chain and keeps every segment at least
`d` long (given the accumulator and all inputs are). -/
theorem mergeLoop_chain (d : ℚ) (hd : 0 < d) (l : List TimelineSegment) :
    ∀ (cur : TimelineSegment) (b : ℚ),
      chainFrom cur.end_time l b →
      d ≤ cur.duration →
      (∀ s ∈ l, d ≤ s.duration) →
      chainFrom cur.start_time (mergeLoop cur l) b ∧
      ∀ s ∈ mergeLoop cur l, d ≤ s.duration := by
  induction l with
  | nil =>
    intro cur b hch hcur _
    rw [TimelineSegment.duration] at hcur
    refine ⟨⟨rfl, by linarith, hch⟩, ?_⟩
    intro s hs
    rcases List.mem_singleton.mp hs with rfl
    rw [TimelineSegment.duration]
    linarith
  | cons nxt rest ih =>
    intro cur b hch hcur hall
    obtain ⟨hstart, hlt, hrest⟩ := hch
    simp only [mergeLoop]
    by_cases hemo : nxt.emotion = cur.emotion
    · rw [if_pos (by simp [hemo, hstart])]
      have hnd := hall nxt (List.mem_cons_self _ _)
      rw [TimelineSegment.duration] at hnd hcur
      have hmerged := ih
        { emotion := cur.emotion, start_time := cur.start_time,
          end_time := max cur.end_time nxt.end_time,
          intensity := max cur.intensity nxt.intensity } b
        (by show chainFrom (max cur.end_time nxt.end_time) rest b
            rw [max_eq_right (le_of_lt hlt)]
            exact hrest)
        (by show d ≤ max cur.end_time nxt.end_time - cur.start_time
            rw [max_eq_right (le_of_lt hlt)]
            have h1 : cur.start_time < cur.end_time := by linarith
            linarith [hstart])
        (fun s hs => hall s (List.mem_cons_of_mem _ hs))
      exact hmerged
    · rw [if_neg (by simp [hemo])]
      have hnd := hall nxt (List.mem_cons_self _ _)
      have hnext := ih nxt b hrest hnd
        (fun s hs => hall s (List.mem_cons_of_mem _ hs))
      rw [TimelineSegment.duration] at hcur
      refine ⟨⟨rfl, by linarith, ?_⟩, ?_⟩
      · rw [← hstart]
        exact hnext.1
      · intro s hs
        rcases List.mem_cons.mp hs with rfl | hs2
        · rw [TimelineSegment.duration]
          linarith
        · exact hnext.2 s hs2

/-- The gap-filling loop is the identity on a chain starting at the
current `last_end`. -/
theorem coverLoop_chain (emo : String) (l : List TimelineSegment) :
    ∀ (a b : ℚ), chainFrom a l b → coverLoop emo l a = (l, b) := by
  induction l with
  | nil =>
    intro a b h
    rw [show a = b from h]
    rfl
  | cons s rest ih =>
    intro a b h
    obtain ⟨hs, hlt, hrest⟩ := h
    simp only [coverLoop]
    rw [if_neg (by rw [hs]; exact lt_irrefl a)]
    rw [max_eq_right (le_of_lt hlt)]
    rw [ih s.end_time b hrest]
    simp

/-- `ensure_full_coverage` is the identity on a chain covering `[0, D]`. -/
theorem ensure_full_coverage_chain (emo : String) (l : List TimelineSegment)
    (D : ℚ) (h : chainFrom 0 l D) (hl : l ≠ []) :
    ensure_full_coverage l D emo = l := by
  simp only [ensure_full_coverage]
  rw [if_neg (by simpa [List.isEmpty_iff] using hl)]
  rw [sortByStart_sorted_id l (chainFrom_sorted l 0 D h)]
  rw [coverLoop_chain emo l 0 D h]
  simp

/-- `_filter_short_segments` keeps everything when every segment is long
enough. -/
theorem filter_short_segments_keep (l : List TimelineSegment) (mind : ℚ)
    (h : ∀ s ∈ l, mind ≤ s.duration) (hl : l ≠ []) :
    filter_short_segments l mind = l := by
  have hf : l.filter (fun s => decide (mind ≤ s.duration)) = l :=
    List.filter_eq_self.mpr (by intro a ha; simpa using h a ha)
  simp only [filter_short_segments]
  rw [hf]
  rw [if_neg (by simpa [List.isEmpty_iff] using hl)]

/-- The single slice that survives the C7 counterexample run. -/
def c7seg : TimelineSegment :=
  { emotion := "a", start_time := 0, end_time := 1/20, intensity := 1 }

/-- C7 counterexample: with three distinct emotions, a 0.15 s audio
duration and the default configuration (`min_segment_duration = 0.1`),
each even slice lasts 0.05 s, so `_filter_short_segments` (which runs
after gap-filling) drops all three and keeps only the first slice
`[0, 0.05]`: the result neither covers `[0, 0.15]` nor sums to the audio
duration within 1 ms. -/
theorem C7_coverage_counterexample :
    PositionBasedStrategy.calculate {} true ["a", "b", "c"] (3/20)
      = Except.ok [c7seg] ∧
    sumDur [c7seg] = 1/20 ∧
    ¬ |sumDur [c7seg] - 3/20| ≤ 1/1000 ∧
    ¬ chainFrom 0 [c7seg] (3/20) := by
  refine ⟨?_, ?_, ?_, ?_⟩
  · norm_num [PositionBasedStrategy.calculate, calculate_even_segments,
      evenSegsAux, merge_adjacent_same_emotion, sortByStart, insertByStart,
      mergeLoop, ensure_full_coverage, coverLoop, filter_short_segments,
      maxByDuration, TimelineSegment.duration, List.filter, c7seg]
    rw [if_neg (show ¬ ("b" = "a") by decide)]
    rw [if_neg (show ¬ ("c" = "b") by decide)]
    rw [if_neg (List.cons_ne_nil _ _)]
    norm_num [maxByDuration, TimelineSegment.duration]
  · norm_num [sumDur, c7seg, TimelineSegment.duration]
  · norm_num [sumDur, c7seg, TimelineSegment.duration]
    rw [abs_of_pos (show (0 : ℚ) < 1/10 by norm_num)]
    norm_num
  · intro h
    have h3 := h.2.2
    have h4 : c7seg.end_time = 3/20 := h3
    norm_num [c7seg] at h4

/-- C7 amended: for every non-empty emotion list, text, positive audio
duration, and configuration whose `min_segment_duration` times the number
of emotions does not exceed the audio duration (so no slice is filtered
away), the position-based strategy returns segments that are ordered by
time, non-overlapping, fully cover `[0, audio_duration]` as a contiguous
chain, and whose durations sum exactly to the audio duration.  Without
that bound, `_filter_short_segments` (which runs after gap-filling) can
drop slices and break coverage. -/
theorem C7_timeline_amended (cfg : TimelineConfig) (smoothing : Bool)
    (emotions : List String) (D : ℚ)
    (hne : emotions ≠ []) (hD : 0 < D)
    (hmin : cfg.min_segment_duration * emotions.length ≤ D) :
    ∃ segs, PositionBasedStrategy.calculate cfg smoothing emotions D
        = Except.ok segs ∧
      chainFrom 0 segs D ∧
      List.Chain' (fun a b => a.end_time ≤ b.start_time) segs ∧
      (∀ s ∈ segs, 0 < s.duration) ∧
      sumDur segs = D := by
  have hnpos : 0 < emotions.length := List.length_pos.mpr hne
  have hnq : 0 < (emotions.length : ℚ) := by exact_mod_cast hnpos
  have hd : 0 < D / emotions.length := div_pos hD hnq
  have hDn : ((emotions.length : ℕ) : ℚ) * (D / emotions.length) = D := by
    field_simp
  have hmind : cfg.min_segment_duration ≤ D / emotions.length := by
    rw [le_div_iff₀ hnq]
    exact hmin
  -- the even split is a chain of `d`-slices
  have heven := evenSegsAux_chain (D / emotions.length) hd emotions 0
  have hevenchain : chainFrom 0 (calculate_even_segments emotions D) D := by
    have h := heven.1
    rw [show (((0 : ℕ) : ℚ) * (D / emotions.length)) = 0 by norm_num] at h
    rw [show ((0 + emotions.length : ℕ) : ℚ) * (D / emotions.length) = D by
      rw [Nat.zero_add]; exact hDn] at h
    exact h
  have hevendur : ∀ s ∈ calculate_even_segments emotions D,
      D / emotions.length ≤ s.duration := by
    intro s hs
    rw [heven.2 s hs]
  -- the optionally merged list is a chain of ≥ `d`-slices
  have hstage2 : chainFrom 0
        (if smoothing then merge_adjacent_same_emotion
          (calculate_even_segments emotions D)
         else calculate_even_segments emotions D) D ∧
      ∀ s ∈ (if smoothing then merge_adjacent_same_emotion
          (calculate_even_segments emotions D)
         else calculate_even_segments emotions D),
        D / emotions.length ≤ s.duration := by
    cases smoothing with
    | false => exact ⟨by simpa using hevenchain, by simpa using hevendur⟩
    | true =>
      simp only [if_true]
      rw [merge_adjacent_same_emotion,
        sortByStart_sorted_id _ (chainFrom_sorted _ 0 D hevenchain)]
      rcases hev : calculate_even_segments emotions D with _ | ⟨s0, rest⟩
      · rw [hev] at hevenchain
        have : (0 : ℚ) = D := hevenchain
        exact absurd this (by linarith)
      · rw [hev] at hevenchain hevendur
        obtain ⟨hs0, hlt0, hrest0⟩ := hevenchain
        have hm := mergeLoop_chain (D / emotions.length) hd rest s0 D hrest0
          (hevendur s0 (List.mem_cons_self _ _))
          (fun s hs => hevendur s (List.mem_cons_of_mem _ hs))
        rw [hs0] at hm
        exact hm
  obtain ⟨hchain2, hdur2⟩ := hstage2
  have hne2 : (if smoothing then merge_adjacent_same_emotion
      (calculate_even_segments emotions D)
     else calculate_even_segments emotions D) ≠ [] := by
    intro hnil
    rw [hnil] at hchain2
    have : (0 : ℚ) = D := hchain2
    linarith
  -- `ensure_full_coverage` and the filter are the identity here
  have hens := ensure_full_coverage_chain cfg.default_emotion _ D hchain2 hne2
  have hfil := filter_short_segments_keep _ cfg.min_segment_duration
    (fun s hs => le_trans hmind (hdur2 s hs)) hne2
  refine ⟨_, ?_, hchain2, chainFrom_nonoverlap _ 0 D hchain2,
    chainFrom_pos _ 0 D hchain2, ?_⟩
  · rw [PositionBasedStrategy.calculate]
    rw [if_neg (not_le.mpr hD)]
    rw [if_neg (by simpa [List.isEmpty_iff] using hne)]
    show Except.ok (filter_short_segments
      (ensure_full_coverage
        (if smoothing = true then
          merge_adjacent_same_emotion (calculate_even_segments emotions D)
         else calculate_even_segments emotions D) D cfg.default_emotion)
      cfg.min_segment_duration) = _
    rw [hens, hfil]
  · rw [chainFrom_sum _ 0 D hchain2]
    ring

/-- Witness for the amended C7 at two emotions over 6 seconds with the
default configuration. -/
theorem C7_timeline_amended_witness :
    ((["happy", "sad"] : List String) ≠ [] ∧ (0 : ℚ) < 6 ∧
      ({} : TimelineConfig).min_segment_duration * (["happy", "sad"] : List String).length ≤ 6) ∧
    (∃ segs, PositionBasedStrategy.calculate {} true ["happy", "sad"] 6
        = Except.ok segs ∧
      chainFrom 0 segs 6 ∧
      List.Chain' (fun a b => a.end_time ≤ b.start_time) segs ∧
      (∀ s ∈ segs, 0 < s.duration) ∧
      sumDur segs = 6) :=
  ⟨⟨by simp, by norm_num, by norm_num⟩,
   C7_timeline_amended {} true ["happy", "sad"] 6 (by simp) (by norm_num)
     (by norm_num)⟩

/-! ## Lemmas about the emotion extractor -/

/-- Decomposition of a text by a match list: each recorded match
`(p, e, w)` is an actual occurrence of the token `[w]` at absolute offset
`p` (with `e = p + |w| + 2`), the matches are non-overlapping and listed
left to right. -/
def Decomp : List Char → Nat → List (Nat × Nat × List Char) → Prop
  | _, _, [] => True
  | cs, pos, (p, e, w) :: rest =>
      ∃ pre suf, cs = pre ++ ('[' :: w ++ [']']) ++ suf ∧
        p = pos + pre.length ∧ e = p + w.length + 2 ∧ Decomp suf e rest

/-- A decomposition of a suffix is a decomposition of the whole text. -/
theorem Decomp_absorb (ms : List (Nat × Nat × List Char)) (suf : List Char)
    (e : Nat) (h : Decomp suf e ms) (pre0 : List Char) (cs : List Char)
    (pos : Nat) (hcs : cs = pre0 ++ suf) (hpos : e = pos + pre0.length) :
    Decomp cs pos ms := by
  cases ms with
  | nil => trivial
  | cons m rest =>
    obtain ⟨p, e2, w⟩ := m
    obtain ⟨pre, suf2, h1, h2, h3, h4⟩ := h
    refine ⟨pre0 ++ pre, suf2, ?_, ?_, h3, h4⟩
    · rw [hcs, h1]
      simp
    · rw [h2, hpos, List.length_append]
      omega

/-- The fuel-indexed scanner only records actual matches, in order. -/
theorem findTagsF_decomp :
    ∀ (fuel : Nat) (cs : List Char) (pos : Nat), cs.length ≤ fuel →
      Decomp cs pos (findTagsF fuel cs pos) := by
  intro fuel
  induction fuel with
  | zero => intro cs pos _; trivial
  | succ fuel ih =>
    intro cs pos hlen
    cases cs with
    | nil => trivial
    | cons c rest =>
      have hlen2 : rest.length ≤ fuel := by
        simp only [List.length_cons] at hlen
        omega
      simp only [findTagsF]
      by_cases hc : c = '['
      · rw [if_pos hc]
        split
        · next rest3 heq =>
          by_cases hname : (rest.takeWhile isTagChar).isEmpty
          · rw [if_pos hname]
            exact Decomp_absorb _ rest (pos + 1) (ih rest (pos + 1) hlen2)
              [c] _ pos rfl (by simp)
          · rw [if_neg hname]
            have hsplit : rest = rest.takeWhile isTagChar ++ (']' :: rest3) := by
              conv_lhs => rw [← List.takeWhile_append_dropWhile (p := isTagChar) (l := rest)]
              rw [heq]
            have hlen3 : rest3.length ≤ fuel := by
              have h2 : (rest.takeWhile isTagChar).length
                  + (rest.dropWhile isTagChar).length = rest.length := by
                rw [← List.length_append, List.takeWhile_append_dropWhile]
              rw [heq] at h2
              simp only [List.length_cons] at h2
              omega
            refine ⟨[], rest3, ?_, by simp, rfl, ?_⟩
            · rw [hc]
              conv_lhs => rw [hsplit]
              simp
            · exact ih rest3 _ hlen3
        · next x heq =>
          exact Decomp_absorb _ rest (pos + 1) (ih rest (pos + 1) hlen2)
            [c] _ pos rfl (by simp)
      · rw [if_neg hc]
        exact Decomp_absorb _ rest (pos + 1) (ih rest (pos + 1) hlen2)
          [c] _ pos rfl (by simp)

/-- The matches recorded by `findTags` decompose the text. -/
theorem findTags_decomp (cs : List Char) (pos : Nat) :
    Decomp cs pos (findTags cs pos) :=
  findTagsF_decomp cs.length cs pos (le_refl _)

/-- Decompositions are preserved by filtering the match list. -/
theorem Decomp_filter (f : Nat × Nat × List Char → Bool) :
    ∀ (ms : List (Nat × Nat × List Char)) (cs : List Char) (pos : Nat),
      Decomp cs pos ms → Decomp cs pos (ms.filter f) := by
  intro ms
  induction ms with
  | nil => intro cs pos _; trivial
  | cons m rest ih =>
    intro cs pos h
    obtain ⟨p, e, w⟩ := m
    obtain ⟨pre, suf, h1, h2, h3, h4⟩ := h
    rw [List.filter_cons]
    by_cases hf : f (p, e, w) = true
    · rw [if_pos hf]
      exact ⟨pre, suf, h1, h2, h3, ih suf e h4⟩
    · rw [if_neg hf]
      refine Decomp_absorb _ suf e (ih suf e h4)
        (pre ++ ('[' :: w ++ [']'])) cs pos ?_ ?_
      · rw [h1]
      · rw [h3, h2]
        simp only [List.length_append, List.length_cons, List.length_nil]
        omega

/-- Remove a left-to-right list of spans from a text; `b` is the absolute
offset of the first character of `cs`. -/
def removeAsc : List (Nat × Nat) → List Char → Nat → List Char
  | [], cs, _ => cs
  | (p, e) :: rest, cs, b =>
      cs.take (p - b) ++ removeAsc rest (cs.drop (e - b)) e

/-- The spans of a list are listed left to right, non-empty, and contained
in `[b, len]`. -/
def SegsIn (len : Nat) : Nat → List (Nat × Nat) → Prop
  | _, [] => True
  | b, (p, e) :: rest => b ≤ p ∧ p < e ∧ e ≤ len ∧ SegsIn len e rest

theorem SegsIn_all :
    ∀ (segs : List (Nat × Nat)) (len b : Nat), SegsIn len b segs →
      ∀ q ∈ segs, b ≤ q.1 ∧ q.1 < q.2 ∧ q.2 ≤ len := by
  intro segs
  induction segs with
  | nil => intro len b _ q hq; exact absurd hq (List.not_mem_nil q)
  | cons s rest ih =>
    intro len b h q hq
    obtain ⟨s1, s2⟩ := s
    obtain ⟨h1, h2, h3, h4⟩ := h
    rcases List.mem_cons.mp hq with hq | hq
    · subst hq
      exact ⟨h1, h2, h3⟩
    · obtain ⟨ha, hb, hc⟩ := ih len s2 h4 q hq
      exact ⟨by omega, hb, hc⟩

/-- The spans of a decomposition lie in order inside the text. -/
theorem Decomp_SegsIn :
    ∀ (ms : List (Nat × Nat × List Char)) (cs : List Char) (pos : Nat),
      Decomp cs pos ms →
      SegsIn (pos + cs.length) pos (ms.map (fun m => (m.1, m.2.1))) := by
  intro ms
  induction ms with
  | nil => intro cs pos _; trivial
  | cons m rest ih =>
    intro cs pos h
    obtain ⟨p, e, w⟩ := m
    obtain ⟨pre, suf, h1, h2, h3, h4⟩ := h
    have hlen : cs.length = pre.length + (w.length + 2) + suf.length := by
      rw [h1]
      simp only [List.length_append, List.length_cons, List.length_nil]
    simp only [List.map_cons]
    refine ⟨by omega, by omega, by omega, ?_⟩
    have hrest := ih suf e h4
    have heq : e + suf.length = pos + cs.length := by omega
    rw [heq] at hrest
    exact hrest

theorem insertSegDesc_all_lt (s : Nat × Nat) :
    ∀ l : List (Nat × Nat), (∀ t ∈ l, s.1 < t.1) →
      insertSegDesc s l = l ++ [s] := by
  intro l
  induction l with
  | nil => intro _; rfl
  | cons t ts ih =>
    intro h
    have ht : s.1 < t.1 := h t (List.mem_cons_self _ _)
    simp only [insertSegDesc]
    rw [if_neg (by omega), ih (fun u hu => h u (List.mem_cons_of_mem _ hu))]
    rfl

/-- On a list whose spans are already in ascending-start order, the
descending sort of `_remove_segments` is exactly the reverse. -/
theorem sortSegDesc_rev :
    ∀ (segs : List (Nat × Nat)) (len b : Nat), SegsIn len b segs →
      sortSegDesc segs = segs.reverse := by
  intro segs
  induction segs with
  | nil => intro len b _; rfl
  | cons s rest ih =>
    intro len b h
    obtain ⟨s1, s2⟩ := s
    obtain ⟨h1, h2, h3, h4⟩ := h
    simp only [sortSegDesc]
    rw [ih len s2 h4]
    have hall : ∀ t ∈ rest.reverse, (s1, s2).1 < t.1 := by
      intro t ht
      rw [List.mem_reverse] at ht
      obtain ⟨ha, hb, hc⟩ := SegsIn_all rest len s2 h4 t ht
      exact lt_of_lt_of_le h2 ha
    rw [insertSegDesc_all_lt (s1, s2) rest.reverse hall, List.reverse_cons]

/-- Removing spans that all start past a fixed prefix leaves the prefix
untouched. -/
theorem foldl_removeOne_append (A : List Char) :
    ∀ (L : List (Nat × Nat)) (B : List Char),
      (∀ q ∈ L, A.length ≤ q.1 ∧ q.1 ≤ q.2) →
      List.foldl removeOne (A ++ B) L
        = A ++ List.foldl removeOne B
            (L.map (fun q => (q.1 - A.length, q.2 - A.length))) := by
  intro L
  induction L with
  | nil => intro B _; rfl
  | cons q L ih =>
    intro B h
    obtain ⟨h1, h2⟩ := h q (List.mem_cons_self _ _)
    have hro : removeOne (A ++ B) q
        = A ++ removeOne B (q.1 - A.length, q.2 - A.length) := by
      simp only [removeOne]
      rw [List.take_append_eq_append_take, List.drop_append_eq_append_drop,
        List.take_of_length_le h1, List.drop_eq_nil_of_le (le_trans h1 h2)]
      simp [List.append_assoc]
    rw [List.foldl_cons, hro, List.map_cons, List.foldl_cons]
    exact ih (removeOne B (q.1 - A.length, q.2 - A.length))
      (fun t ht => h t (List.mem_cons_of_mem _ ht))

/-- Folding `removeOne` over the reversed (descending) span list equals the
single ascending pass `removeAsc`. -/
theorem foldl_rev_removeOne :
    ∀ (segs : List (Nat × Nat)) (cs : List Char) (b : Nat),
      SegsIn (b + cs.length) b segs →
      List.foldl removeOne cs
          ((segs.map (fun q => (q.1 - b, q.2 - b))).reverse)
        = removeAsc segs cs b := by
  intro segs
  induction segs with
  | nil => intro cs b _; rfl
  | cons q rest ih =>
    intro cs b h
    obtain ⟨p, e⟩ := q
    obtain ⟨hbp, hpe, hel, hrest⟩ := h
    have hbe : b ≤ e := by omega
    have hA : (cs.take (e - b)).length = e - b := by
      rw [List.length_take]; omega
    rw [List.map_cons, List.reverse_cons, List.foldl_append]
    simp only [List.foldl_cons, List.foldl_nil]
    have hall : ∀ t ∈ (rest.map (fun q => (q.1 - b, q.2 - b))).reverse,
        (cs.take (e - b)).length ≤ t.1 ∧ t.1 ≤ t.2 := by
      intro t ht
      rw [List.mem_reverse, List.mem_map] at ht
      obtain ⟨q0, hq0, rfl⟩ := ht
      obtain ⟨ha, hb2, hc⟩ := SegsIn_all rest (b + cs.length) e hrest q0 hq0
      rw [hA]
      constructor
      · show e - b ≤ q0.1 - b
        omega
      · show q0.1 - b ≤ q0.2 - b
        omega
    have hinner : List.foldl removeOne cs
          ((rest.map (fun q => (q.1 - b, q.2 - b))).reverse)
        = cs.take (e - b) ++ removeAsc rest (cs.drop (e - b)) e := by
      have hsplit : cs = cs.take (e - b) ++ cs.drop (e - b) :=
        (List.take_append_drop _ _).symm
      conv_lhs => rw [hsplit]
      rw [foldl_removeOne_append (cs.take (e - b)) _ _ hall]
      congr 1
      have hmap : ((rest.map (fun q => (q.1 - b, q.2 - b))).reverse).map
            (fun q => (q.1 - (cs.take (e - b)).length,
              q.2 - (cs.take (e - b)).length))
          = (rest.map (fun q => (q.1 - e, q.2 - e))).reverse := by
        rw [← List.map_reverse, ← List.map_reverse, List.map_map]
        apply List.map_congr_left
        intro q0 hq0
        rw [List.mem_reverse] at hq0
        obtain ⟨ha, hb2, hc⟩ := SegsIn_all rest (b + cs.length) e hrest q0 hq0
        simp only [Function.comp_apply, hA, Prod.mk.injEq]
        constructor <;> omega
      rw [hmap]
      apply ih
      have hd : e + (cs.drop (e - b)).length = b + cs.length := by
        rw [List.length_drop]; omega
      rw [hd]
      exact hrest
    rw [hinner]
    simp only [removeAsc]
    simp only [removeOne]
    rw [List.take_append_eq_append_take, List.drop_append_eq_append_drop, hA]
    rw [show p - b - (e - b) = 0 from by omega, List.take_zero, List.append_nil]
    rw [show e - b - (e - b) = 0 from by omega, List.drop_zero]
    rw [List.drop_eq_nil_of_le (le_of_eq hA), List.nil_append]
    rw [List.take_take]
    rw [show min (p - b) (e - b) = p - b from by omega]

/-- `_remove_segments` (descending sort then repeated cut) computes the
single ascending removal pass when the spans are in order and in range. -/
theorem remove_segments_eq_removeAsc (cs : List Char)
    (segs : List (Nat × Nat)) (h : SegsIn cs.length 0 segs) :
    remove_segments cs segs = removeAsc segs cs 0 := by
  have h0 : SegsIn (0 + cs.length) 0 segs := by simpa using h
  have hfold := foldl_rev_removeOne segs cs 0 h0
  rw [remove_segments, sortSegDesc_rev segs cs.length 0 h]
  simpa using hfold

theorem reinsertTags_cons (cleaned : List Char) (t : EmotionTag)
    (ts : List EmotionTag) :
    reinsertTags cleaned (t :: ts)
      = reinsertTags (insertAt cleaned t.position ('[' :: t.emotion ++ [']'])) ts :=
  rfl

/-- Re-inserting the recorded tags (in match order) into the ascending
removal of a decomposed text restores the text, provided every recorded
name equals its lowercasing. `A` is the already-reconstructed prefix. -/
theorem reinsert_roundtrip_aux :
    ∀ (ms : List (Nat × Nat × List Char)) (cs : List Char) (pos : Nat)
      (A : List Char), Decomp cs pos ms → A.length = pos →
      (∀ m ∈ ms, m.2.2.map lowerChar = m.2.2) →
      reinsertTags (A ++ removeAsc (ms.map (fun m => (m.1, m.2.1))) cs pos)
          (ms.map (fun m => { emotion := m.2.2.map lowerChar, position := m.1 }))
        = A ++ cs := by
  intro ms
  induction ms with
  | nil => intro cs pos A _ _ _; rfl
  | cons m rest ih =>
    intro cs pos A hdec hA hlc
    obtain ⟨p, e, w⟩ := m
    obtain ⟨pre, suf, h1, h2, h3, h4⟩ := hdec
    have hw : w.map lowerChar = w := hlc (p, e, w) (List.mem_cons_self _ _)
    have hlpre : cs.take (p - pos) = pre := by
      rw [h1, show p - pos = pre.length from by omega, List.append_assoc]
      exact List.take_left ..
    have hdrop : cs.drop (e - pos) = suf := by
      rw [h1]
      rw [show e - pos = (pre ++ ('[' :: w ++ [']'])).length from by
        simp only [List.length_append, List.length_cons, List.length_nil]
        omega]
      exact List.drop_left ..
    simp only [List.map_cons]
    simp only [removeAsc]
    rw [hlpre, hdrop]
    rw [reinsertTags_cons]
    simp only [hw]
    have hassoc : A ++ (pre ++ removeAsc (rest.map (fun m => (m.1, m.2.1))) suf e)
        = (A ++ pre) ++ removeAsc (rest.map (fun m => (m.1, m.2.1))) suf e :=
      (List.append_assoc _ _ _).symm
    have hlen2 : (A ++ pre).length = p := by
      rw [List.length_append, hA]; omega
    have htk : (A ++ (pre ++ removeAsc (rest.map (fun m => (m.1, m.2.1))) suf e)).take p
        = A ++ pre := by
      rw [hassoc, ← hlen2]
      exact List.take_left ..
    have hdr : (A ++ (pre ++ removeAsc (rest.map (fun m => (m.1, m.2.1))) suf e)).drop p
        = removeAsc (rest.map (fun m => (m.1, m.2.1))) suf e := by
      rw [hassoc, ← hlen2]
      exact List.drop_left ..
    have hins : insertAt
          (A ++ (pre ++ removeAsc (rest.map (fun m => (m.1, m.2.1))) suf e)) p
          ('[' :: w ++ [']'])
        = (A ++ pre ++ ('[' :: w ++ [']']))
            ++ removeAsc (rest.map (fun m => (m.1, m.2.1))) suf e := by
      rw [insertAt, htk, hdr]
    rw [hins]
    rw [ih suf e (A ++ pre ++ ('[' :: w ++ [']'])) h4
      (by simp only [List.length_append, List.length_cons, List.length_nil, hA]
          omega)
      (fun m hm => hlc m (List.mem_cons_of_mem _ hm))]
    rw [h1]
    simp [List.append_assoc]

/-- C4. The spec's round-trip claim fails on `"[x[A]y]"`: the inner tag
`[A]` is extracted, its removal splices the remaining characters into the
new valid-looking token `[xy]` in the cleaned text, and re-insertion
produces `"[x[a]y]"` (stored names are lowercased), not the original. -/
theorem C4_roundtrip_counterexample :
    (EmotionExtractor.extract none "[x[A]y]".toList).2 = "[xy]".toList ∧
    hasValidTag none (EmotionExtractor.extract none "[x[A]y]".toList).2 = true ∧
    reinsertTags (EmotionExtractor.extract none "[x[A]y]".toList).2
        (EmotionExtractor.extract none "[x[A]y]".toList).1
      ≠ "[x[A]y]".toList := by
  decide

/-- C4 (amended): whenever every kept tag name is already lowercase,
re-inserting each extracted tag at its stored position into the cleaned
text reconstructs the input exactly. -/
theorem C4_roundtrip_amended (valid : Option (List (List Char)))
    (text : List Char)
    (hlow : ∀ m ∈ (findTags text 0).filter
        (fun m => keepTag valid (m.2.2.map lowerChar)),
      m.2.2.map lowerChar = m.2.2) :
    reinsertTags (EmotionExtractor.extract valid text).2
      (EmotionExtractor.extract valid text).1 = text := by
  have hdec : Decomp text 0 ((findTags text 0).filter
      (fun m => keepTag valid (m.2.2.map lowerChar))) :=
    Decomp_filter (fun m => keepTag valid (m.2.2.map lowerChar))
      (findTags text 0) text 0 (findTags_decomp text 0)
  have hsegs : SegsIn text.length 0 (((findTags text 0).filter
      (fun m => keepTag valid (m.2.2.map lowerChar))).map
        (fun m => (m.1, m.2.1))) := by
    have hs := Decomp_SegsIn _ text 0 hdec
    simpa using hs
  have hrm := remove_segments_eq_removeAsc text _ hsegs
  have hrt := reinsert_roundtrip_aux _ text 0 [] hdec rfl hlow
  simp only [EmotionExtractor.extract]
  rw [hrm]
  simpa using hrt

theorem C4_roundtrip_amended_witness :
    (∀ m ∈ (findTags "a[joy]b".toList 0).filter
        (fun m => keepTag none (m.2.2.map lowerChar)),
      m.2.2.map lowerChar = m.2.2) ∧
    reinsertTags (EmotionExtractor.extract none "a[joy]b".toList).2
        (EmotionExtractor.extract none "a[joy]b".toList).1
      = "a[joy]b".toList :=
  ⟨by decide, C4_roundtrip_amended none "a[joy]b".toList (by decide)⟩
